import Mathlib

/-!
Verification of td-logo-generator: layout, spiral tiler, canvas drawing and
input parsers.

A shallow embedding of `main.go`.  The Go type `int` is modelled by `Int` (all
quantities handled here stay far inside the 64-bit range, except inside
`Atoi`, whose range check is modelled explicitly, and in
`GetPointListBounds64`, which models the wrap-around), and Go strings are modelled
by lists of characters.  Splitting on the ASCII bytes `x` and `,` and testing
for ASCII digits agree on bytes and on characters, because in UTF-8 an ASCII
byte never occurs inside a multi-byte sequence.  The canvas is a function from
pixel coordinates to colours, the random source is a stream of raw draws, and
the quotient in `IntDivideCeil` is the exact rational one; the last section
shows that a correctly rounded `float64` quotient has the same ceiling.
-/

namespace TdLogo

/-! ## Geometry (`image.Point`, `image.Rectangle`, `image.Rect`) -/

/-- The type `image.Point` of Go: an integer coordinate pair. -/
structure Point where
  X : Int
  Y : Int
deriving DecidableEq

/-- The type `image.Rectangle` of Go: `Min` inclusive, `Max` exclusive. -/
structure Rectangle where
  Min : Point
  Max : Point
deriving DecidableEq

/-- The constructor `image.Rect` of Go: it swaps the coordinates where needed so
that the rectangle is well formed. -/
def Rect (x0 y0 x1 y1 : Int) : Rectangle :=
  let xs : Int × Int := if x0 > x1 then (x1, x0) else (x0, x1)
  let ys : Int × Int := if y0 > y1 then (y1, y0) else (y0, y1)
  ⟨⟨xs.1, ys.1⟩, ⟨xs.2, ys.2⟩⟩

/-- The hard-coded glyph of `main`: eleven grid cells. -/
def logo : List Point :=
  [⟨0, 0⟩, ⟨4, 0⟩,
   ⟨0, 1⟩, ⟨1, 1⟩, ⟨3, 1⟩, ⟨4, 1⟩,
   ⟨0, 2⟩, ⟨2, 2⟩, ⟨4, 2⟩,
   ⟨1, 3⟩, ⟨3, 3⟩]

/-! ## Layout calculator -/

/-- The function `IntDivideCeil(a, b) = int(math.Ceil(float64(a) / float64(b)))`, with the
floating-point quotient idealised to the exact rational quotient.  Division by
zero (an infinite or NaN quotient in Go) is outside the model. -/
def IntDivideCeil (a b : Int) : Int :=
  Int.ceil ((a : ℚ) / (b : ℚ))

/-- The function `IntMax`. -/
def IntMax (a b : Int) : Int :=
  if a > b then a else b

/-- The loop of `GetPointListBounds`: running maxima `(mx, my)`, both starting
at `0`. -/
def boundsLoop (pts : List Point) : Int × Int :=
  pts.foldl (fun m pt => (IntMax pt.X m.1, IntMax pt.Y m.2)) ((0 : Int), (0 : Int))

/-- The function `GetPointListBounds(pts, px)` in exact integer arithmetic, as used
for the layout; `GetPointListBounds64` below adds the 64-bit wrap-around, and
the two agree whenever nothing overflows (`GetPointListBounds64_eq`). -/
def GetPointListBounds (pts : List Point) (px : Int) : Rectangle :=
  let m := boundsLoop pts
  let w := m.1 * px
  let h := m.2 * px
  Rect 0 0 (w + px) (h + px)

/-- The value of a Go `int` after an arithmetic operation whose exact result is
`n`: the 64-bit two's complement wrap-around. -/
def wrap64 (n : Int) : Int :=
  (n + 2 ^ 63) % 2 ^ 64 - 2 ^ 63

/-- The function `GetPointListBounds(pts, px)` with the 64-bit wrap-around of
its two products and two sums (`mx*px`, `my*px`, `w+px`, `h+px`). -/
def GetPointListBounds64 (pts : List Point) (px : Int) : Rectangle :=
  let m := boundsLoop pts
  let w := wrap64 (m.1 * px)
  let h := wrap64 (m.2 * px)
  Rect 0 0 (wrap64 (w + px)) (wrap64 (h + px))

/-! ## Spiral tiler -/

/-- The loop variables `x, y, xd, yd` of `DrawBackground`. -/
structure SpiralState where
  x : Int
  y : Int
  xd : Int
  yd : Int
deriving DecidableEq

/-- Initial values: `x, y := 0, 0` and `xd, yd := 0, -1`. -/
def spiralStart : SpiralState := ⟨0, 0, 0, -1⟩

/-- The corner test of the loop body. -/
def atCorner (x y : Int) : Bool :=
  decide (x = y ∨ (x < 0 ∧ x = -y) ∨ (x > 0 ∧ x = 1 - y))

/-- The tail of one loop iteration: turn if at a corner, then advance. -/
def spiralStep (s : SpiralState) : SpiralState :=
  let d : Int × Int := if atCorner s.x s.y then (-s.yd, s.xd) else (s.xd, s.yd)
  ⟨s.x + d.1, s.y + d.2, d.1, d.2⟩

/-- Loop variables at the start of iteration `i`. -/
def spiralAt : Nat → SpiralState
  | 0 => spiralStart
  | i + 1 => spiralStep (spiralAt i)

/-- Tile coordinate visited at iteration `i`. -/
def spiralPos (i : Nat) : Int × Int :=
  ((spiralAt i).x, (spiralAt i).y)

/-- The window test `(-wt/2 <= x && x <= wt/2) && (-ht/2 <= y && y <= ht/2)`;
integer division in Go truncates toward zero. -/
def inWindow (wt ht x y : Int) : Bool :=
  decide ((Int.tdiv (-wt) 2 ≤ x ∧ x ≤ Int.tdiv wt 2) ∧ (Int.tdiv (-ht) 2 ≤ y ∧ y ≤ Int.tdiv ht 2))

/-- The `for i := 0; i < t; i++` loop of `DrawBackground`, with `n` iterations
left, over an abstract image state; `drawLogo img p lx ly` stands for
`DrawLogo(img, logo, palettes[p], lx, ly, px)`. -/
def spiralLoop {σ : Type} (drawLogo : σ → Nat → Int → Int → σ) (dx dy lw lh wt ht : Int) :
    Nat → Nat → SpiralState → σ → σ
  | 0, _, _, img => img
  | n + 1, i, s, img =>
    let img1 := if inWindow wt ht s.x s.y then drawLogo img (i % 2) (dx + s.x * lw) (dy + s.y * lh)
      else img
    spiralLoop drawLogo dx dy lw lh wt ht n (i + 1) (spiralStep s) img1

/-- Layout values computed at the top of `DrawBackground`. -/
structure Layout where
  lw : Int
  lh : Int
  dx : Int
  dy : Int
  wt : Int
  ht : Int
  t : Int
deriving DecidableEq

/-- The layout of `DrawBackground` for an `iw × ih` canvas. -/
def layout (iw ih : Int) (pts : List Point) (px : Int) : Layout :=
  let lb := GetPointListBounds pts px
  let lw := lb.Max.X
  let lh := lb.Max.Y
  let dx := Int.tdiv (iw - lw) 2
  let dy := Int.tdiv (ih - lh) 2
  let wt := IntDivideCeil (iw + dx) lw
  let ht := IntDivideCeil (ih + dy) lh
  ⟨lw, lh, dx, dy, wt, ht, wt * ht⟩

/-- The function `DrawBackground(img, logo, px)` on a canvas with bounds `(0,0)-(iw,ih)`,
over an abstract image state. -/
def DrawBackground {σ : Type} (drawLogo : σ → Nat → Int → Int → σ) (img : σ) (iw ih : Int)
    (pts : List Point) (px : Int) : σ :=
  let l := layout iw ih pts px
  spiralLoop drawLogo l.dx l.dy l.lw l.lh l.wt l.ht l.t.toNat 0 spiralStart img

/-- One `DrawLogo` call made by the background loop. -/
structure DrawCall where
  palette : Nat
  lx : Int
  ly : Int
deriving DecidableEq

/-- The `DrawLogo` calls of `DrawBackground`, in order. -/
def backgroundCalls (iw ih : Int) (pts : List Point) (px : Int) : List DrawCall :=
  DrawBackground (fun acc p lx ly => acc ++ [DrawCall.mk p lx ly]) [] iw ih pts px

/-- The call made at iteration `i`, if the spiral position passes the window
test: `DrawLogo(img, logo, palettes[i%2], dx+(x*lw), dy+(y*lh), px)`. -/
def stepCall (l : Layout) (i : Nat) : Option DrawCall :=
  if inWindow l.wt l.ht (spiralAt i).x (spiralAt i).y then
    some ⟨i % 2, l.dx + (spiralAt i).x * l.lw, l.dy + (spiralAt i).y * l.lh⟩
  else none

/-! ## Input resolution -/

/-- The two failure causes of `strconv` (`ErrSyntax`, `ErrRange`). -/
inductive NumError where
  | errSyntax
  | errRange
deriving DecidableEq

/-- Result of a Go function call: it returns a value or stops with a run-time
failure (index out of range). -/
inductive Outcome (α : Type) where
  | ret (v : α)
  | indexOutOfRange
deriving DecidableEq

/-- The digit test of `strconv.ParseUint`: the byte lies between the digits 0 and 9. -/
def isDigit (c : Char) : Bool :=
  decide ('0'.toNat ≤ c.toNat ∧ c.toNat ≤ '9'.toNat)

/-- Base-10 cutoff of `ParseUint`: the least `n` with `n * 10 > maxUint64`. -/
def uintCutoff : Nat := (2 ^ 64 - 1) / 10 + 1

/-- Digit loop of `strconv.ParseUint(s, 10, 64)` with accumulator `n`. -/
def parseUintLoop : List Char → Nat → Except NumError Nat
  | [], n => .ok n
  | c :: cs, n =>
    if isDigit c = false then .error .errSyntax
    else if n ≥ uintCutoff then .error .errRange
    else
      let n1 := n * 10 + (c.toNat - '0'.toNat)
      if n1 > 2 ^ 64 - 1 then .error .errRange
      else parseUintLoop cs n1

/-- The call `strconv.ParseUint(s, 10, 64)`. -/
def ParseUint (s : List Char) : Except NumError Nat :=
  if s = [] then .error .errSyntax else parseUintLoop s 0

/-- The call `strconv.Atoi(s)` on a 64-bit platform, following `ParseInt(s, 10, 0)`
(the short-input fast path of `Atoi` computes the same result).  The number
returned next to an error is never read by the callers and is left out. -/
def Atoi (s : List Char) : Except NumError Int :=
  match s with
  | [] => .error .errSyntax
  | c :: cs =>
    let neg := decide (c = '-')
    let body := if c = '+' ∨ c = '-' then cs else s
    match ParseUint body with
    | .error e => .error e
    | .ok un =>
      if neg = false ∧ un ≥ 2 ^ 63 then .error .errRange
      else if neg = true ∧ un > 2 ^ 63 then .error .errRange
      else .ok (if neg then -(un : Int) else (un : Int))

/-- The function `strings.Cut(s, sep)` of Go for a one-byte separator: the text before and
after the first `sep`, if there is one. -/
def cut (sep : Char) : List Char → Option (List Char × List Char)
  | [] => none
  | c :: cs =>
    if c = sep then some ([], cs)
    else (cut sep cs).map (fun p => (c :: p.1, p.2))

/-- The function `strings.SplitN(s, sep, n)` of Go for a one-byte separator and `n ≥ 0`: at
most `n` fields, the last one being the unsplit remainder. -/
def SplitN (s : List Char) (sep : Char) : Nat → List (List Char)
  | 0 => []
  | n + 1 =>
    if n = 0 then [s]
    else
      match cut sep s with
      | none => [s]
      | some (a, rest) => a :: SplitN rest sep n

/-- The function `ParseDimensions(in)`: the returned triple `(x, y, err)`. -/
def ParseDimensions (s : List Char) : Outcome (Int × Int × Option NumError) :=
  let xy := SplitN s 'x' 2
  if xy.length = 2 then
    match xy[0]?, xy[1]? with
    | some p0, some p1 =>
      match Atoi p0 with
      | .error _ => .ret (0, 0, none)
      | .ok x =>
        match Atoi p1 with
        | .error _ => .ret (0, 0, none)
        | .ok y => .ret (x, y, none)
    | _, _ => .indexOutOfRange
  else
    match xy[0]? with
    | none => .indexOutOfRange
    | some p0 =>
      match Atoi p0 with
      | .error e => .ret (0, 0, some e)
      | .ok x => .ret (x, x, none)

/-- The type `color.RGBA` of Go. -/
structure RGBA where
  R : Nat
  G : Nat
  B : Nat
  A : Nat
deriving DecidableEq

/-- The conversion `uint8(n)` of a Go `int`: the low eight bits. -/
def uint8 (n : Int) : Nat :=
  (n % 256).toNat

/-- The function `ParseColour(in)`: the returned pair `(colour, err)`, `none` standing for
`nil`. -/
def ParseColour (s : List Char) : Outcome (Option RGBA × Option NumError) :=
  let rgb := SplitN s ',' 3
  match rgb[0]? with
  | none => .indexOutOfRange
  | some f0 =>
    match Atoi f0 with
    | .error e => .ret (none, some e)
    | .ok r =>
      match rgb[1]? with
      | none => .indexOutOfRange
      | some f1 =>
        match Atoi f1 with
        | .error e => .ret (none, some e)
        | .ok g =>
          match rgb[2]? with
          | none => .indexOutOfRange
          | some f2 =>
            match Atoi f2 with
            | .error e => .ret (none, some e)
            | .ok b => .ret (some ⟨uint8 r, uint8 g, uint8 b, 0xff⟩, none)

/-! ## Closed form of the spiral -/

/-- Closed form of the step index at which the spiral visits `(x, y)`. -/
def spiralIndex (x y : Int) : Int :=
  if -x < y ∧ y ≤ x then 4 * x * x - 3 * x + y
  else if -y ≤ x ∧ x < y then 4 * y * y - y - x
  else if x ≤ y ∧ y < -x then 4 * x * x - x - y
  else 4 * y * y - 3 * y + x

/-- Direction `(xd, yd)` held on arrival at `(x, y)`. -/
def spiralDir (x y : Int) : Int × Int :=
  if x = 0 ∧ y = 0 then (0, -1)
  else if 0 < x ∧ y = 1 - x then (1, 0)
  else if -x < y ∧ y ≤ x then (0, 1)
  else if -y ≤ x ∧ x < y then (-1, 0)
  else if x ≤ y ∧ y < -x then (0, -1)
  else (1, 0)

/-- State of the loop on arrival at `(x, y)`. -/
def arrive (x y : Int) : SpiralState :=
  ⟨x, y, (spiralDir x y).1, (spiralDir x y).2⟩


/-! ## Pixel rectangles and the properties under study -/

/-- Pixel membership, the method `Point.In` of Go. -/
def Rectangle.Contains (r : Rectangle) (p : Point) : Prop :=
  r.Min.X ≤ p.X ∧ p.X < r.Max.X ∧ r.Min.Y ≤ p.Y ∧ p.Y < r.Max.Y

instance (r : Rectangle) (p : Point) : Decidable (r.Contains p) := by
  unfold Rectangle.Contains; infer_instance

/-- The rectangle filled for the glyph cell `pt` by
`DrawLogo(img, logo, colours, x, y, px)`: `image.Rect(x1, y1, x2, y2)`. -/
def cellRect (pt : Point) (x y px : Int) : Rectangle :=
  Rect (pt.X * px + x) (pt.Y * px + y) (pt.X * px + px + x) (pt.Y * px + px + y)

/-- The `lw × lh` pixel rectangle of tile `(x, y)`, whose corner is the
position `(dx + x*lw, dy + y*lh)` handed to `DrawLogo`. -/
def tileRect (l : Layout) (x y : Int) : Rectangle :=
  ⟨⟨l.dx + x * l.lw, l.dy + y * l.lh⟩, ⟨l.dx + x * l.lw + l.lw, l.dy + y * l.lh + l.lh⟩⟩

/-- Tile `(x, y)` shares a pixel with the canvas `(0,0)-(iw,ih)`. -/
def TileMeetsCanvas (iw ih : Int) (l : Layout) (x y : Int) : Prop :=
  ∃ p : Point, (tileRect l x y).Contains p ∧ (Rect 0 0 iw ih).Contains p

/-- Coverage: every tile that shares a pixel with the canvas is reached by one
of the `t` loop iterations and passes the window test there. -/
def CoversCanvas (iw ih : Int) (pts : List Point) (px : Int) : Prop :=
  ∀ x y : Int, TileMeetsCanvas iw ih (layout iw ih pts px) x y →
    ∃ i : Nat, i < (layout iw ih pts px).t.toNat ∧ spiralPos i = (x, y) ∧
      inWindow (layout iw ih pts px).wt (layout iw ih pts px).ht x y = true

/-- Every tile coordinate of the window is visited by exactly one of the
`wt * ht` loop iterations. -/
def VisitsWindowOnce (wt ht : Int) : Prop :=
  ∀ x y : Int, inWindow wt ht x y = true →
    ∃! i : Nat, i < (wt * ht).toNat ∧ spiralPos i = (x, y)

/-- The number `m` is the largest column of `pts`. -/
def IsMaxCol (pts : List Point) (m : Int) : Prop :=
  (∃ p ∈ pts, p.X = m) ∧ ∀ p ∈ pts, p.X ≤ m

/-- The number `m` is the largest row of `pts`. -/
def IsMaxRow (pts : List Point) (m : Int) : Prop :=
  (∃ p ∈ pts, p.Y = m) ∧ ∀ p ∈ pts, p.Y ≤ m

/-- The bounding rectangle anchored at the origin with the largest column
`mc` and the largest row `mr`. -/
def boundsOf (mc mr px : Int) : Rectangle :=
  ⟨⟨0, 0⟩, ⟨(mc + 1) * px, (mr + 1) * px⟩⟩

/-! ## Canvas and drawing -/

/-- An `image.RGBA` canvas: its bounds and the colour stored at each pixel. -/
structure Image where
  bounds : Rectangle
  pix : Int → Int → RGBA

/-- The call `image.NewRGBA(r)`: a canvas with bounds `r` and all pixels zero. -/
def NewRGBA (r : Rectangle) : Image :=
  ⟨r, fun _ _ => ⟨0, 0, 0, 0⟩⟩

/-- The call `draw.Draw(img, r, &image.Uniform{c}, image.Point{0, 0}, draw.Src)`:
every pixel of `r` that lies inside the bounds of the canvas is set to `c`, the
other pixels keep their colour.  (The further clip of `r` to the bounds of the
uniform source, a billion pixels around its corner, is outside the model.) -/
def fillRect (img : Image) (r : Rectangle) (c : RGBA) : Image :=
  ⟨img.bounds, fun x y =>
    if r.Contains ⟨x, y⟩ ∧ img.bounds.Contains ⟨x, y⟩ then c else img.pix x y⟩

/-- The colour `color.Gray{v}` as stored in an RGBA canvas: fully covering gray. -/
def grayRGBA (v : Nat) : RGBA :=
  ⟨v, v, v, 0xff⟩

/-- The process-wide random source: the stream of raw draws and the number of
draws consumed so far. -/
structure Rand where
  src : Nat → Nat
  pos : Nat

/-- The call `rand.Intn(n)` for `n > 0`: a value below `n` taken from the next
raw draw; every sequence of outcomes arises from some stream. -/
def Rand.Intn (r : Rand) (n : Nat) : Nat × Rand :=
  (r.src r.pos % n, ⟨r.src, r.pos + 1⟩)

/-- The function `DrawLogo(img, logo, colours, x, y, px)`; a palette is the list
of its gray levels.  The index drawn is below `len(colours)`, so the default
of `getD` is never used for a non-empty palette. -/
def DrawLogo (img : Image) (pts : List Point) (colours : List Nat) (x y px : Int) (rng : Rand) :
    Image × Rand :=
  pts.foldl (fun st pt =>
    let k := st.2.Intn colours.length
    let c := colours.getD k.1 0
    (fillRect st.1 (cellRect pt x y px) (grayRGBA c), k.2)) (img, rng)

/-- The two background palettes of `DrawBackground`. -/
def palettes : List (List Nat) :=
  [[6, 7, 8, 9, 10], [11, 12, 13, 14, 15]]

/-- The near-white palette that `main` passes to `DrawLogo`. -/
def fgPalette : List Nat :=
  [255, 245, 235, 225, 215]

/-- The call `DrawLogo(img, logo, palettes[p], lx, ly, px)` made by the loop of
`DrawBackground`, on the canvas and the random source. -/
def drawBackgroundLogo (pts : List Point) (px : Int) (st : Image × Rand) (p : Nat)
    (lx ly : Int) : Image × Rand :=
  DrawLogo st.1 pts (palettes.getD p []) lx ly px st.2

/-- The function `DrawBackground(img, logo, px)` on a canvas, with the random
source threaded through. -/
def DrawBackgroundImage (img : Image) (pts : List Point) (px : Int) (rng : Rand) :
    Image × Rand :=
  DrawBackground (drawBackgroundLogo pts px) (img, rng) img.bounds.Max.X img.bounds.Max.Y pts px

/-- The centering offset `dx, dy := (iw-lw)/2, (ih-lh)/2` computed in `main`. -/
def mainOffset (iw ih pixel : Int) : Int × Int :=
  let lb := GetPointListBounds logo pixel
  let lw := lb.Max.X
  let lh := lb.Max.Y
  (Int.tdiv (iw - lw) 2, Int.tdiv (ih - lh) 2)

/-- The drawing pipeline of `main` for parsed dimensions `x`, `y`, background
`bg`, tile size `pixel` and a stream of raw random draws: the final canvas. -/
def mainImage (x y : Int) (bg : RGBA) (pixel : Int) (src : Nat → Nat) : Image :=
  let img0 := NewRGBA (Rect 0 0 x y)
  let img := fillRect img0 img0.bounds bg
  let iw := img.bounds.Max.X
  let ih := img.bounds.Max.Y
  let d := mainOffset iw ih pixel
  let st := DrawBackgroundImage img logo pixel ⟨src, 0⟩
  (DrawLogo st.1 logo fgPalette d.1 d.2 pixel st.2).1

/-- The gray levels of the two background palettes and of the foreground
palette. -/
def paletteShades : List Nat :=
  [6, 7, 8, 9, 10, 11, 12, 13, 14, 15, 215, 225, 235, 245, 255]

/-! ## Rounding of the quotient in `IntDivideCeil` -/

/-- The finite values of the type `float64`: `m * 2^e` with `|m| < 2^53` and
`-1074 ≤ e ≤ 971`. -/
def IsFloat64 (x : ℚ) : Prop :=
  ∃ m e : Int, |m| < 2 ^ 53 ∧ -1074 ≤ e ∧ e ≤ 971 ∧ x = (m : ℚ) * (2 : ℚ) ^ e

/-- The value `r` is a `float64` nearest to the exact number `q`: a possible
result of a correctly rounded operation whose exact result is `q`, whatever
the rule for ties. -/
def RoundsTo (q r : ℚ) : Prop :=
  IsFloat64 r ∧ ∀ x : ℚ, IsFloat64 x → |r - q| ≤ |x - q|

/-- The integer `z` is a possible result of `IntDivideCeil(a, b)` as executed:
`int(math.Ceil(r))` for a correctly rounded quotient `r` of `float64(a)` by
`float64(b)`, the two conversions being exact. -/
def IntDivideCeilFloat (a b z : Int) : Prop :=
  ∃ r : ℚ, RoundsTo ((a : ℚ) / (b : ℚ)) r ∧ z = Int.ceil r

/-! ## The spiral walk -/

theorem spiralIndex_right (x y : Int) (h1 : -x < y) (h2 : y ≤ x) :
    spiralIndex x y = 4 * x * x - 3 * x + y := by
  unfold spiralIndex; rw [if_pos ⟨h1, h2⟩]

theorem spiralIndex_top (x y : Int) (h1 : -y ≤ x) (h2 : x < y) :
    spiralIndex x y = 4 * y * y - y - x := by
  unfold spiralIndex; rw [if_neg (by omega), if_pos ⟨h1, h2⟩]

theorem spiralIndex_left (x y : Int) (h1 : x ≤ y) (h2 : y < -x) :
    spiralIndex x y = 4 * x * x - x - y := by
  unfold spiralIndex; rw [if_neg (by omega), if_neg (by omega), if_pos ⟨h1, h2⟩]

theorem spiralIndex_bottom (x y : Int) (h1 : y < x ∨ (x = 0 ∧ y = 0)) (h2 : x ≤ -y) :
    spiralIndex x y = 4 * y * y - 3 * y + x := by
  unfold spiralIndex; rw [if_neg (by omega), if_neg (by omega), if_neg (by omega)]

theorem spiralDir_first (x y : Int) (h1 : 0 < x) (h2 : y = 1 - x) : spiralDir x y = (1, 0) := by
  unfold spiralDir; rw [if_neg (by omega), if_pos ⟨h1, h2⟩]

theorem spiralDir_right (x y : Int) (h1 : 1 - x < y) (h2 : y ≤ x) : spiralDir x y = (0, 1) := by
  unfold spiralDir; rw [if_neg (by omega), if_neg (by omega), if_pos (by omega)]

theorem spiralDir_top (x y : Int) (h1 : -y ≤ x) (h2 : x < y) : spiralDir x y = (-1, 0) := by
  unfold spiralDir; rw [if_neg (by omega), if_neg (by omega), if_neg (by omega), if_pos ⟨h1, h2⟩]

theorem spiralDir_left (x y : Int) (h1 : x ≤ y) (h2 : y < -x) : spiralDir x y = (0, -1) := by
  unfold spiralDir
  rw [if_neg (by omega), if_neg (by omega), if_neg (by omega), if_neg (by omega), if_pos ⟨h1, h2⟩]

theorem spiralDir_bottom (x y : Int) (h1 : y < x) (h2 : x ≤ -y) : spiralDir x y = (1, 0) := by
  unfold spiralDir
  rw [if_neg (by omega), if_neg (by omega), if_neg (by omega), if_neg (by omega), if_neg (by omega)]

theorem atCorner_iff (x y : Int) :
    atCorner x y = true ↔ (x = y ∨ (x < 0 ∧ x = -y) ∨ (x > 0 ∧ x = 1 - y)) := by
  simp [atCorner]

theorem atCorner_false (x y : Int)
    (h : ¬ (x = y ∨ (x < 0 ∧ x = -y) ∨ (x > 0 ∧ x = 1 - y))) : atCorner x y = false := by
  rcases hb : atCorner x y with _ | _
  · rfl
  · exact absurd ((atCorner_iff _ _).1 hb) h

theorem spiralStep_turn (x y x' y' : Int) {d e : Int × Int} (hd : spiralDir x y = d)
    (h : x = y ∨ (x < 0 ∧ x = -y) ∨ (x > 0 ∧ x = 1 - y))
    (he : spiralDir x' y' = e) (hx : x' = x + -d.2) (hy : y' = y + d.1) (hde : e = (-d.2, d.1)) :
    spiralStep (arrive x y) = arrive x' y' := by
  have hc : atCorner x y = true := (atCorner_iff _ _).2 h
  subst hde hx hy
  simp only [arrive, spiralStep, hc, if_true, hd, he]

theorem spiralStep_straight (x y x' y' : Int) {d : Int × Int} (hd : spiralDir x y = d)
    (h : ¬ (x = y ∨ (x < 0 ∧ x = -y) ∨ (x > 0 ∧ x = 1 - y)))
    (he : spiralDir x' y' = d) (hx : x' = x + d.1) (hy : y' = y + d.2) :
    spiralStep (arrive x y) = arrive x' y' := by
  have hc : atCorner x y = false := atCorner_false x y h
  subst hx hy
  simp [arrive, spiralStep, hc, hd, he]

theorem spiralStep_arrive (x y : Int) :
    ∃ x' y', spiralStep (arrive x y) = arrive x' y' ∧ spiralIndex x' y' = spiralIndex x y + 1 := by
  have hcases : (x = 0 ∧ y = 0) ∨ (0 < x ∧ y = 1 - x) ∨ (1 - x < y ∧ y < x) ∨ (x = y ∧ 0 < x) ∨
      (-y < x ∧ x < y) ∨ (x = -y ∧ x < 0) ∨ (x < y ∧ y < -x) ∨ (x = y ∧ x < 0) ∨
      (y < x ∧ x ≤ -y) := by omega
  rcases hcases with ⟨rfl, rfl⟩ | ⟨h1, h2⟩ | ⟨h1, h2⟩ | ⟨h1, h2⟩ | ⟨h1, h2⟩ | ⟨h1, h2⟩ | ⟨h1, h2⟩ |
    ⟨h1, h2⟩ | ⟨h1, h2⟩
  · exact ⟨1, 0, by decide, by decide⟩
  · -- first cell of the right side: turn upwards
    refine ⟨x, y + 1, spiralStep_turn x y x (y + 1) (spiralDir_first x y h1 h2) (by omega)
        (spiralDir_right x (y + 1) (by omega) (by omega)) (by simp) (by simp) (by simp), ?_⟩
    rw [spiralIndex_right x (y + 1) (by omega) (by omega)]
    rcases Int.lt_or_le 1 x with hx | hx
    · rw [spiralIndex_right x y (by omega) (by omega)]; ring
    · have : x = 1 := by omega
      subst this; subst h2; decide
  · -- right side, going up
    refine ⟨x, y + 1, spiralStep_straight x y x (y + 1) (spiralDir_right x y h1 (by omega))
        (by omega) (spiralDir_right x (y + 1) (by omega) (by omega)) (by simp) (by simp), ?_⟩
    rw [spiralIndex_right x (y + 1) (by omega) (by omega),
      spiralIndex_right x y (by omega) (by omega)]
    ring
  · -- top right corner: turn left
    refine ⟨x - 1, y, spiralStep_turn x y (x - 1) y (spiralDir_right x y (by omega) (by omega))
        (by omega) (spiralDir_top (x - 1) y (by omega) (by omega)) (by simp; ring) (by simp)
        (by simp), ?_⟩
    rw [spiralIndex_top (x - 1) y (by omega) (by omega),
      spiralIndex_right x y (by omega) (by omega), h1]
    ring
  · -- top side, going left
    refine ⟨x - 1, y, spiralStep_straight x y (x - 1) y (spiralDir_top x y (by omega) h2)
        (by omega) (spiralDir_top (x - 1) y (by omega) (by omega)) (by simp; ring) (by simp), ?_⟩
    rw [spiralIndex_top (x - 1) y (by omega) (by omega),
      spiralIndex_top x y (by omega) (by omega)]
    ring
  · -- top left corner: turn down
    refine ⟨x, y - 1, spiralStep_turn x y x (y - 1) (spiralDir_top x y (by omega) (by omega))
        (by omega) (spiralDir_left x (y - 1) (by omega) (by omega)) (by simp) (by simp; ring)
        (by simp), ?_⟩
    rw [spiralIndex_left x (y - 1) (by omega) (by omega),
      spiralIndex_top x y (by omega) (by omega), h1]
    ring
  · -- left side, going down
    refine ⟨x, y - 1, spiralStep_straight x y x (y - 1) (spiralDir_left x y (by omega) (by omega))
        (by omega) (spiralDir_left x (y - 1) (by omega) (by omega)) (by simp) (by simp; ring), ?_⟩
    rw [spiralIndex_left x (y - 1) (by omega) (by omega),
      spiralIndex_left x y (by omega) (by omega)]
    ring
  · -- bottom left corner: turn right
    refine ⟨x + 1, y, spiralStep_turn x y (x + 1) y (spiralDir_left x y (by omega) (by omega))
        (by omega) (spiralDir_bottom (x + 1) y (by omega) (by omega)) (by simp) (by simp)
        (by simp), ?_⟩
    rw [spiralIndex_bottom (x + 1) y (by omega) (by omega),
      spiralIndex_left x y (by omega) (by omega), h1]
    ring
  · -- bottom side, going right; the last cell leads into the next ring
    rcases Int.lt_or_le x (-y) with hx | hx
    · refine ⟨x + 1, y, spiralStep_straight x y (x + 1) y (spiralDir_bottom x y h1 h2)
          (by omega) (spiralDir_bottom (x + 1) y (by omega) (by omega)) (by simp) (by simp), ?_⟩
      rw [spiralIndex_bottom (x + 1) y (by omega) (by omega),
        spiralIndex_bottom x y (by omega) (by omega)]
      ring
    · refine ⟨x + 1, y, spiralStep_straight x y (x + 1) y (spiralDir_bottom x y h1 h2)
          (by omega) (spiralDir_first (x + 1) y (by omega) (by omega)) (by simp) (by simp), ?_⟩
      have hxy : x = -y := by omega
      rw [spiralIndex_right (x + 1) y (by omega) (by omega),
        spiralIndex_bottom x y (by omega) (by omega), hxy]
      ring

theorem spiralAt_arrive (i : Nat) :
    ∃ x y, spiralAt i = arrive x y ∧ spiralIndex x y = i := by
  induction i with
  | zero => exact ⟨0, 0, by decide, by decide⟩
  | succ n ih =>
    obtain ⟨x, y, hs, hi⟩ := ih
    obtain ⟨x', y', hs', hi'⟩ := spiralStep_arrive x y
    refine ⟨x', y', ?_, ?_⟩
    · show spiralStep (spiralAt n) = _
      rw [hs, hs']
    · rw [hi', hi]; push_cast; ring

/-- The closed form inverts the walk: the cell visited at step `i` has index `i`. -/
theorem spiralIndex_spiralPos (i : Nat) : spiralIndex (spiralPos i).1 (spiralPos i).2 = i := by
  obtain ⟨x, y, hs, hi⟩ := spiralAt_arrive i
  simp only [spiralPos, hs, arrive]
  exact hi

theorem spiralPos_injective : Function.Injective spiralPos := by
  intro i j h
  have hi := spiralIndex_spiralPos i
  have hj := spiralIndex_spiralPos j
  rw [h, hj] at hi
  exact_mod_cast hi.symm

/-! ## Layout calculator -/

theorem IntMax_spec (a b : Int) :
    a ≤ IntMax a b ∧ b ≤ IntMax a b ∧ (IntMax a b = b ∨ IntMax a b = a) := by
  unfold IntMax; split_ifs <;> omega

/-- The fold of `GetPointListBounds` from any start `(a, b)`: the result bounds
the start and all points, and is attained by the start or by a point. -/
theorem boundsFold_spec (pts : List Point) (a b : Int) :
    let m := pts.foldl (fun m pt => (IntMax pt.X m.1, IntMax pt.Y m.2)) (a, b)
    (a ≤ m.1 ∧ (∀ p ∈ pts, p.X ≤ m.1) ∧ (m.1 = a ∨ ∃ p ∈ pts, p.X = m.1)) ∧
    (b ≤ m.2 ∧ (∀ p ∈ pts, p.Y ≤ m.2) ∧ (m.2 = b ∨ ∃ p ∈ pts, p.Y = m.2)) := by
  induction pts generalizing a b with
  | nil => simp
  | cons q qs ih =>
    have h := ih (IntMax q.X a) (IntMax q.Y b)
    simp only [List.foldl_cons, List.mem_cons, forall_eq_or_imp, exists_eq_or_imp]
    obtain ⟨hx1, hx2, hx3⟩ := IntMax_spec q.X a
    obtain ⟨hy1, hy2, hy3⟩ := IntMax_spec q.Y b
    generalize IntMax q.X a = u at h hx1 hx2 hx3 ⊢
    generalize IntMax q.Y b = v at h hy1 hy2 hy3 ⊢
    obtain ⟨⟨h1, h2, h3⟩, ⟨h4, h5, h6⟩⟩ := h
    refine ⟨⟨le_trans hx2 h1, ⟨le_trans hx1 h1, h2⟩, ?_⟩, ⟨le_trans hy2 h4, ⟨le_trans hy1 h4, h5⟩, ?_⟩⟩
    · rcases h3 with h3 | h3
      · rcases hx3 with hx3 | hx3
        · left; rw [h3, hx3]
        · right; left; rw [h3, hx3]
      · right; right; exact h3
    · rcases h6 with h6 | h6
      · rcases hy3 with hy3 | hy3
        · left; rw [h6, hy3]
        · right; left; rw [h6, hy3]
      · right; right; exact h6

theorem boundsLoop_nonneg (pts : List Point) : 0 ≤ (boundsLoop pts).1 ∧ 0 ≤ (boundsLoop pts).2 :=
  ⟨(boundsFold_spec pts 0 0).1.1, (boundsFold_spec pts 0 0).2.1⟩

theorem Rect_of_le (x0 y0 x1 y1 : Int) (hx : x0 ≤ x1) (hy : y0 ≤ y1) :
    Rect x0 y0 x1 y1 = ⟨⟨x0, y0⟩, ⟨x1, y1⟩⟩ := by
  unfold Rect
  rw [if_neg (by omega), if_neg (by omega)]

theorem GetPointListBounds_eq (pts : List Point) (px : Int) (hpx : 0 < px) :
    GetPointListBounds pts px = boundsOf (boundsLoop pts).1 (boundsLoop pts).2 px := by
  obtain ⟨h1, h2⟩ := boundsLoop_nonneg pts
  have hw : 0 ≤ (boundsLoop pts).1 * px := mul_nonneg h1 hpx.le
  have hh : 0 ≤ (boundsLoop pts).2 * px := mul_nonneg h2 hpx.le
  unfold GetPointListBounds boundsOf
  simp only
  rw [Rect_of_le 0 0 _ _ (by omega) (by omega)]
  congr 2 <;> ring

theorem wrap64_of_range (n : Int) (h0 : -(2 ^ 63) ≤ n) (h1 : n < 2 ^ 63) : wrap64 n = n := by
  unfold wrap64
  omega

theorem isMaxCol_origin (pts : List Point) (mc : Int) (h : IsMaxCol (⟨0, 0⟩ :: pts) mc) :
    mc = (boundsLoop pts).1 := by
  obtain ⟨⟨h1, h2, h3⟩, _⟩ := boundsFold_spec pts 0 0
  change 0 ≤ (boundsLoop pts).1 at h1
  change ∀ p ∈ pts, p.X ≤ (boundsLoop pts).1 at h2
  change (boundsLoop pts).1 = 0 ∨ ∃ p ∈ pts, p.X = (boundsLoop pts).1 at h3
  obtain ⟨⟨q, hq, hqe⟩, hle⟩ := h
  apply le_antisymm
  · rcases List.mem_cons.1 hq with rfl | hq
    · rw [← hqe]; exact h1
    · rw [← hqe]; exact h2 q hq
  · rcases h3 with h3 | ⟨p, hp, hpe⟩
    · rw [h3]; exact hle ⟨0, 0⟩ (List.mem_cons_self _ _)
    · rw [← hpe]; exact hle p (List.mem_cons_of_mem _ hp)

theorem isMaxRow_origin (pts : List Point) (mr : Int) (h : IsMaxRow (⟨0, 0⟩ :: pts) mr) :
    mr = (boundsLoop pts).2 := by
  obtain ⟨_, ⟨h1, h2, h3⟩⟩ := boundsFold_spec pts 0 0
  change 0 ≤ (boundsLoop pts).2 at h1
  change ∀ p ∈ pts, p.Y ≤ (boundsLoop pts).2 at h2
  change (boundsLoop pts).2 = 0 ∨ ∃ p ∈ pts, p.Y = (boundsLoop pts).2 at h3
  obtain ⟨⟨q, hq, hqe⟩, hle⟩ := h
  apply le_antisymm
  · rcases List.mem_cons.1 hq with rfl | hq
    · rw [← hqe]; exact h1
    · rw [← hqe]; exact h2 q hq
  · rcases h3 with h3 | ⟨p, hp, hpe⟩
    · rw [h3]; exact hle ⟨0, 0⟩ (List.mem_cons_self _ _)
    · rw [← hpe]; exact hle p (List.mem_cons_of_mem _ hp)

/-- Without overflow the 64-bit computation agrees with the exact one. -/
theorem GetPointListBounds64_eq (pts : List Point) (px : Int) (hpx : 0 < px)
    (hw : ((boundsLoop pts).1 + 1) * px < 2 ^ 63) (hh : ((boundsLoop pts).2 + 1) * px < 2 ^ 63) :
    GetPointListBounds64 pts px = GetPointListBounds pts px := by
  obtain ⟨h1, h2⟩ := boundsLoop_nonneg pts
  have e1 : 0 ≤ (boundsLoop pts).1 * px := mul_nonneg h1 hpx.le
  have e2 : 0 ≤ (boundsLoop pts).2 * px := mul_nonneg h2 hpx.le
  rw [add_mul, one_mul] at hw hh
  unfold GetPointListBounds64 GetPointListBounds
  simp only
  rw [wrap64_of_range ((boundsLoop pts).1 * px) (by omega) (by omega),
    wrap64_of_range ((boundsLoop pts).2 * px) (by omega) (by omega),
    wrap64_of_range ((boundsLoop pts).1 * px + px) (by omega) (by omega),
    wrap64_of_range ((boundsLoop pts).2 * px + px) (by omega) (by omega)]

/-- C4 (as stated) fails on two kinds of input.  For the single point
`(-3, -2)` and `px = 1` the largest column is `-3` and the largest row `-2`,
yet the rectangle returned is `(0,0)-(1,1)`, not the claimed `(0,0)-(-2,-1)`:
the running maxima start at `0`.  For the single point `(2^62, 0)` and `px = 4`
the products overflow the 64-bit `int`, and the rectangle returned is
`(0,0)-(4,4)`, not one of width `(2^62+1)*4`. -/
theorem GetPointListBounds_fails :
    (([⟨-3, -2⟩] : List Point) ≠ [] ∧ (0 : Int) < 1 ∧ IsMaxCol [⟨-3, -2⟩] (-3) ∧
      IsMaxRow [⟨-3, -2⟩] (-2) ∧
      GetPointListBounds64 [⟨-3, -2⟩] 1 = ⟨⟨0, 0⟩, ⟨1, 1⟩⟩ ∧
      GetPointListBounds64 [⟨-3, -2⟩] 1 ≠ ⟨⟨0, 0⟩, ⟨(-3 + 1) * 1, (-2 + 1) * 1⟩⟩) ∧
    (([⟨2 ^ 62, 0⟩] : List Point) ≠ [] ∧ (0 : Int) < 4 ∧ IsMaxCol [⟨2 ^ 62, 0⟩] (2 ^ 62) ∧
      IsMaxRow [⟨2 ^ 62, 0⟩] 0 ∧
      GetPointListBounds64 [⟨2 ^ 62, 0⟩] 4 = ⟨⟨0, 0⟩, ⟨4, 4⟩⟩ ∧
      GetPointListBounds64 [⟨2 ^ 62, 0⟩] 4 ≠ ⟨⟨0, 0⟩, ⟨(2 ^ 62 + 1) * 4, (0 + 1) * 4⟩⟩) := by
  refine ⟨⟨by simp, by decide, ?_, ?_, by decide, by decide⟩,
    ⟨by simp, by decide, ?_, ?_, by decide, by decide⟩⟩
  · simp [IsMaxCol]
  · simp [IsMaxRow]
  · simp [IsMaxCol]
  · simp [IsMaxRow]

/-- C4 (amended): let `mc` and `mr` be the largest column and the largest row
among the points of `pts` together with the origin cell `(0,0)` (the running
maxima start at `0`).  For every `px > 0` for which `(mc+1)*px` and `(mr+1)*px`
are below `2^63`, so that nothing overflows, `GetPointListBounds(pts, px)`
returns the rectangle with `Min = (0,0)`, width `(mc+1)*px` and height
`(mr+1)*px`; the exact computation used for the layout returns the same
rectangle.  The numbers `mc` and `mr` are the largest column and row of `pts`
itself as soon as some point has a column `≥ 0` and some point a row `≥ 0`. -/
theorem GetPointListBounds_in_range (pts : List Point) (px mc mr : Int) (hpx : 0 < px)
    (hc : IsMaxCol (⟨0, 0⟩ :: pts) mc) (hr : IsMaxRow (⟨0, 0⟩ :: pts) mr)
    (hw : (mc + 1) * px < 2 ^ 63) (hh : (mr + 1) * px < 2 ^ 63) :
    GetPointListBounds64 pts px = ⟨⟨0, 0⟩, ⟨(mc + 1) * px, (mr + 1) * px⟩⟩ ∧
    GetPointListBounds pts px = ⟨⟨0, 0⟩, ⟨(mc + 1) * px, (mr + 1) * px⟩⟩ ∧
    ((∃ p ∈ pts, 0 ≤ p.X) → IsMaxCol pts mc) ∧
    ((∃ p ∈ pts, 0 ≤ p.Y) → IsMaxRow pts mr) := by
  have hmc := isMaxCol_origin pts mc hc
  have hmr := isMaxRow_origin pts mr hr
  subst hmc hmr
  have hid : GetPointListBounds pts px =
      ⟨⟨0, 0⟩, ⟨((boundsLoop pts).1 + 1) * px, ((boundsLoop pts).2 + 1) * px⟩⟩ :=
    GetPointListBounds_eq pts px hpx
  refine ⟨by rw [GetPointListBounds64_eq pts px hpx hw hh, hid], hid, ?_, ?_⟩
  · rintro ⟨q, hq, hq0⟩
    obtain ⟨⟨p, hp, hpe⟩, hle⟩ := hc
    refine ⟨?_, fun p hp => hle p (List.mem_cons_of_mem _ hp)⟩
    rcases List.mem_cons.1 hp with rfl | hp
    · exact ⟨q, hq, le_antisymm (hle q (List.mem_cons_of_mem _ hq)) (by rw [← hpe]; exact hq0)⟩
    · exact ⟨p, hp, hpe⟩
  · rintro ⟨q, hq, hq0⟩
    obtain ⟨⟨p, hp, hpe⟩, hle⟩ := hr
    refine ⟨?_, fun p hp => hle p (List.mem_cons_of_mem _ hp)⟩
    rcases List.mem_cons.1 hp with rfl | hp
    · exact ⟨q, hq, le_antisymm (hle q (List.mem_cons_of_mem _ hq)) (by rw [← hpe]; exact hq0)⟩
    · exact ⟨p, hp, hpe⟩

/-- Instance of C4 (amended) for the hard-coded logo and `px = 10`: the largest
column is `4`, the largest row `3`, and the rectangle is `(0,0)-(50,40)`. -/
theorem GetPointListBounds_in_range_witness :
    (0 : Int) < 10 ∧ IsMaxCol (⟨0, 0⟩ :: logo) 4 ∧ IsMaxRow (⟨0, 0⟩ :: logo) 3 ∧
    ((4 : Int) + 1) * 10 < 2 ^ 63 ∧ ((3 : Int) + 1) * 10 < 2 ^ 63 ∧
    GetPointListBounds64 logo 10 = ⟨⟨0, 0⟩, ⟨(4 + 1) * 10, (3 + 1) * 10⟩⟩ ∧
    GetPointListBounds logo 10 = ⟨⟨0, 0⟩, ⟨(4 + 1) * 10, (3 + 1) * 10⟩⟩ ∧
    ((∃ p ∈ logo, 0 ≤ p.X) → IsMaxCol logo 4) ∧
    ((∃ p ∈ logo, 0 ≤ p.Y) → IsMaxRow logo 3) :=
  ⟨by decide, by unfold IsMaxCol; decide, by unfold IsMaxRow; decide, by decide, by decide,
    GetPointListBounds_in_range logo 10 4 3 (by decide) (by unfold IsMaxCol; decide)
      (by unfold IsMaxRow; decide) (by decide) (by decide)⟩

/-! ## Input resolution -/

theorem parseUintLoop_digits (s : List Char) (n m : Nat) (h : parseUintLoop s n = .ok m) :
    ∀ c ∈ s, isDigit c = true := by
  induction s generalizing n with
  | nil => simp
  | cons c cs ih =>
    simp only [parseUintLoop] at h
    split_ifs at h with h1 h2 h3
    intro d hd
    rcases List.mem_cons.1 hd with rfl | hd
    · simpa using h1
    · exact ih _ h d hd

/-- A string accepted by `Atoi` consists of a sign or digit followed by digits. -/
theorem Atoi_chars (s : List Char) (a : Int) (h : Atoi s = .ok a) :
    ∀ c ∈ s, isDigit c = true ∨ c = '+' ∨ c = '-' := by
  cases s with
  | nil => simp [Atoi] at h
  | cons c cs =>
    unfold Atoi at h
    simp only at h
    split at h
    · exact absurd h (by simp)
    · rename_i un hun
      intro d hdm
      by_cases hc : c = '+' ∨ c = '-'
      · rw [if_pos hc] at hun
        rcases List.mem_cons.1 hdm with rfl | hdm
        · exact Or.inr hc
        · unfold ParseUint at hun
          by_cases h0 : cs = []
          · rw [if_pos h0] at hun; exact absurd hun (by simp)
          · rw [if_neg h0] at hun
            exact Or.inl (parseUintLoop_digits _ _ _ hun d hdm)
      · rw [if_neg hc] at hun
        unfold ParseUint at hun
        rw [if_neg (List.cons_ne_nil c cs)] at hun
        exact Or.inl (parseUintLoop_digits _ _ _ hun d hdm)

theorem Atoi_not_mem (s : List Char) (a : Int) (h : Atoi s = .ok a) (sep : Char)
    (hsep : isDigit sep = false ∧ sep ≠ '+' ∧ sep ≠ '-') : sep ∉ s := by
  intro hm
  rcases Atoi_chars s a h sep hm with h1 | h1 | h1
  · rw [hsep.1] at h1; exact absurd h1 (by simp)
  · exact hsep.2.1 h1
  · exact hsep.2.2 h1

theorem cut_of_not_mem (sep : Char) (s : List Char) (h : sep ∉ s) : cut sep s = none := by
  induction s with
  | nil => rfl
  | cons c cs ih =>
    simp only [List.mem_cons, not_or] at h
    unfold cut
    rw [if_neg (fun e => h.1 e.symm), ih h.2]; rfl

theorem cut_append (sep : Char) (w r : List Char) (h : sep ∉ w) :
    cut sep (w ++ sep :: r) = some (w, r) := by
  induction w with
  | nil => simp [cut]
  | cons c cs ih =>
    simp only [List.mem_cons, not_or] at h
    simp only [List.cons_append]
    unfold cut
    rw [if_neg (fun e => h.1 e.symm), ih h.2]; rfl

theorem cut_some_mem (sep : Char) (s a r : List Char) (h : cut sep s = some (a, r)) :
    s = a ++ sep :: r ∧ sep ∉ a := by
  induction s generalizing a with
  | nil => simp [cut] at h
  | cons c cs ih =>
    unfold cut at h
    split_ifs at h with hc
    · simp only [Option.some.injEq, Prod.mk.injEq] at h
      obtain ⟨rfl, rfl⟩ := h
      simp [hc]
    · cases hcut : cut sep cs with
      | none => rw [hcut] at h; simp at h
      | some p =>
        obtain ⟨p1, p2⟩ := p
        rw [hcut] at h
        simp only [Option.map_some', Option.some.injEq, Prod.mk.injEq] at h
        obtain ⟨rfl, rfl⟩ := h
        obtain ⟨h1, h2⟩ := ih p1 hcut
        refine ⟨by rw [h1]; simp, ?_⟩
        simp only [List.mem_cons, not_or]
        exact ⟨fun e => hc e.symm, h2⟩

theorem SplitN_two_none (s : List Char) (sep : Char) (h : sep ∉ s) : SplitN s sep 2 = [s] := by
  simp [SplitN, cut_of_not_mem sep s h]

theorem SplitN_two_some (w r : List Char) (sep : Char) (h : sep ∉ w) :
    SplitN (w ++ sep :: r) sep 2 = [w, r] := by
  simp [SplitN, cut_append sep w r h]

theorem SplitN_three (a b c : List Char) (sep : Char) (ha : sep ∉ a) (hb : sep ∉ b) :
    SplitN (a ++ sep :: (b ++ sep :: c)) sep 3 = [a, b, c] := by
  simp [SplitN, cut_append sep a _ ha, cut_append sep b _ hb]

/-- C5: for an input `W ++ "x" ++ H` whose two parts are accepted by `Atoi` with
values `a` and `b`, `ParseDimensions` returns `(a, b)` and a nil error. -/
theorem ParseDimensions_two_parts (w h : List Char) (a b : Int)
    (hw : Atoi w = .ok a) (hh : Atoi h = .ok b) :
    ParseDimensions (w ++ 'x' :: h) = .ret (a, b, none) := by
  have hx : 'x' ∉ w := Atoi_not_mem w a hw 'x' (by decide)
  unfold ParseDimensions
  rw [SplitN_two_some w h 'x' hx]
  simp [hw, hh]

/-- Instance of C5 at the input `"800x600"`. -/
theorem ParseDimensions_two_parts_witness :
    Atoi "800".toList = .ok 800 ∧ Atoi "600".toList = .ok 600 ∧
    ParseDimensions "800x600".toList = .ret (800, 600, none) :=
  ⟨rfl, rfl, ParseDimensions_two_parts "800".toList "600".toList 800 600 rfl rfl⟩

/-- C6: for an input without `x` that `Atoi` accepts with value `n`,
`ParseDimensions` returns the square dimensions `(n, n)` and a nil error. -/
theorem ParseDimensions_single (s : List Char) (n : Int)
    (hx : 'x' ∉ s) (hs : Atoi s = .ok n) :
    ParseDimensions s = .ret (n, n, none) := by
  unfold ParseDimensions
  rw [SplitN_two_none s 'x' hx]
  simp [hs]

/-- Instance of C6 at the input `"50"`. -/
theorem ParseDimensions_single_witness :
    'x' ∉ "50".toList ∧ Atoi "50".toList = .ok 50 ∧
    ParseDimensions "50".toList = .ret (50, 50, none) :=
  ⟨by decide, rfl, ParseDimensions_single "50".toList 50 (by decide) rfl⟩

/-- C7: for an input without `x` that `Atoi` rejects with error `e`,
`ParseDimensions` returns the dimensions `(0, 0)` and the non-nil error `e`. -/
theorem ParseDimensions_single_error (s : List Char) (e : NumError)
    (hx : 'x' ∉ s) (hs : Atoi s = .error e) :
    ParseDimensions s = .ret (0, 0, some e) := by
  unfold ParseDimensions
  rw [SplitN_two_none s 'x' hx]
  simp [hs]

/-- Instance of C7 at the input `"abc"`. -/
theorem ParseDimensions_single_error_witness :
    'x' ∉ "abc".toList ∧ Atoi "abc".toList = .error .errSyntax ∧
    ParseDimensions "abc".toList = .ret (0, 0, some .errSyntax) :=
  ⟨by decide, rfl, ParseDimensions_single_error "abc".toList .errSyntax (by decide) rfl⟩

/-- C8 (code check at the failing input): on `"abcx600"` the first part fails
integer parsing, and `ParseDimensions` returns `(0, 0)` with a nil error
instead of signalling the failure. -/
theorem ParseDimensions_two_parts_silent :
    SplitN "abcx600".toList 'x' 2 = ["abc".toList, "600".toList] ∧
    Atoi "abc".toList = .error .errSyntax ∧
    ParseDimensions "abcx600".toList = .ret (0, 0, none) := by
  refine ⟨by decide, rfl, by decide⟩


theorem uint8_cast (n : Int) : ((uint8 n : Nat) : Int) = n % 256 := by
  unfold uint8
  exact Int.toNat_of_nonneg (Int.emod_nonneg n (by decide))

theorem uint8_of_byte (n : Int) (h0 : 0 ≤ n) (h1 : n ≤ 255) : ((uint8 n : Nat) : Int) = n := by
  rw [uint8_cast]; omega

/-- C9: for an input `R ++ "," ++ G ++ "," ++ B` whose three fields are accepted
by `Atoi` with values `x`, `y`, `z`, `ParseColour` returns a nil error and the
colour with channels `x mod 256`, `y mod 256`, `z mod 256` (the low eight bits,
so negative and out-of-range values wrap) and alpha `255`; for values between
`0` and `255` the channels are the values themselves. -/
theorem ParseColour_three_fields (r g b : List Char) (x y z : Int)
    (hr : Atoi r = .ok x) (hg : Atoi g = .ok y) (hb : Atoi b = .ok z) :
    ∃ c : RGBA, ParseColour (r ++ ',' :: (g ++ ',' :: b)) = .ret (some c, none) ∧
      (c.R : Int) = x % 256 ∧ (c.G : Int) = y % 256 ∧ (c.B : Int) = z % 256 ∧ c.A = 255 ∧
      (0 ≤ x ∧ x ≤ 255 → (c.R : Int) = x) ∧ (0 ≤ y ∧ y ≤ 255 → (c.G : Int) = y) ∧
      (0 ≤ z ∧ z ≤ 255 → (c.B : Int) = z) := by
  have h1 : ',' ∉ r := Atoi_not_mem r x hr ',' (by decide)
  have h2 : ',' ∉ g := Atoi_not_mem g y hg ',' (by decide)
  refine ⟨⟨uint8 x, uint8 y, uint8 z, 255⟩, ?_, uint8_cast x, uint8_cast y, uint8_cast z, rfl,
    fun h => uint8_of_byte x h.1 h.2, fun h => uint8_of_byte y h.1 h.2,
    fun h => uint8_of_byte z h.1 h.2⟩
  unfold ParseColour
  rw [SplitN_three r g b ',' h1 h2]
  simp [hr, hg, hb]

/-- Instance of C9 at the input `"10,20,30"`. -/
theorem ParseColour_three_fields_witness :
    Atoi "10".toList = .ok 10 ∧ Atoi "20".toList = .ok 20 ∧ Atoi "30".toList = .ok 30 ∧
    ∃ c : RGBA, ParseColour "10,20,30".toList = .ret (some c, none) ∧
      (c.R : Int) = 10 % 256 ∧ (c.G : Int) = 20 % 256 ∧ (c.B : Int) = 30 % 256 ∧ c.A = 255 ∧
      ((0 : Int) ≤ 10 ∧ (10 : Int) ≤ 255 → (c.R : Int) = 10) ∧
      ((0 : Int) ≤ 20 ∧ (20 : Int) ≤ 255 → (c.G : Int) = 20) ∧
      ((0 : Int) ≤ 30 ∧ (30 : Int) ≤ 255 → (c.B : Int) = 30) :=
  ⟨rfl, rfl, rfl, ParseColour_three_fields "10".toList "20".toList "30".toList 10 20 30 rfl rfl rfl⟩

/-- C10 (code check at the failing input): `"10,20"` splits into the two fields
`"10"` and `"20"`, both accepted by `Atoi`, and `ParseColour` then reads
`rgb[2]` out of range: it stops with a run-time failure and returns no error
value.  The same happens for the one-field input `"10"` at `rgb[1]`. -/
theorem ParseColour_missing_field :
    SplitN "10,20".toList ',' 3 = ["10".toList, "20".toList] ∧
    Atoi "10".toList = .ok 10 ∧ Atoi "20".toList = .ok 20 ∧
    ParseColour "10,20".toList = .indexOutOfRange ∧
    ParseColour "10".toList = .indexOutOfRange := by
  refine ⟨by decide, rfl, rfl, by decide, by decide⟩

/-! ## Squares covered by the spiral -/

/-- A cell outside the square of radius `k` has index at least `(2k+1)²`. -/
theorem spiralIndex_ge (x y k : Int) (hk : 0 ≤ k)
    (h : ¬ (-k ≤ x ∧ x ≤ k ∧ -k ≤ y ∧ y ≤ k)) : (2 * k + 1) * (2 * k + 1) ≤ spiralIndex x y := by
  have hcases : (-x < y ∧ y ≤ x) ∨ (-y ≤ x ∧ x < y) ∨ (x ≤ y ∧ y < -x) ∨
      ((y < x ∨ (x = 0 ∧ y = 0)) ∧ x ≤ -y) := by omega
  rcases hcases with ⟨h1, h2⟩ | ⟨h1, h2⟩ | ⟨h1, h2⟩ | ⟨h1, h2⟩
  · rw [spiralIndex_right x y h1 h2]
    have hx : k + 1 ≤ x := by omega
    nlinarith [mul_self_le_mul_self (by omega : (0 : Int) ≤ 2 * k + 1) (by omega : 2 * k + 1 ≤ 2 * x - 1)]
  · rw [spiralIndex_top x y h1 h2]
    have hy : k + 1 ≤ y := by omega
    nlinarith [mul_self_le_mul_self (by omega : (0 : Int) ≤ 2 * k + 1) (by omega : 2 * k + 1 ≤ 2 * y - 1)]
  · rw [spiralIndex_left x y h1 h2]
    have hx : k + 1 ≤ -x := by omega
    nlinarith [mul_self_le_mul_self (by omega : (0 : Int) ≤ 2 * k + 1) (by omega : 2 * k + 1 ≤ -2 * x - 1)]
  · rw [spiralIndex_bottom x y h1 h2]
    have hy : k + 1 ≤ -y := by omega
    have hyx : y < x := by omega
    nlinarith [mul_self_le_mul_self (by omega : (0 : Int) ≤ 2 * k + 1) (by omega : 2 * k + 1 ≤ -2 * y - 1)]

/-- The first `(2k+1)²` steps stay inside the square of radius `k`. -/
theorem spiralPos_mem_square (k i : Nat) (hi : i < (2 * k + 1) * (2 * k + 1)) :
    -(k : Int) ≤ (spiralPos i).1 ∧ (spiralPos i).1 ≤ k ∧
    -(k : Int) ≤ (spiralPos i).2 ∧ (spiralPos i).2 ≤ k := by
  by_contra h
  have h1 := spiralIndex_ge (spiralPos i).1 (spiralPos i).2 k (by omega) h
  rw [spiralIndex_spiralPos] at h1
  have h2 : ((2 * k + 1) * (2 * k + 1) : Int) = (((2 * k + 1) * (2 * k + 1) : Nat) : Int) := by
    push_cast; ring
  rw [h2] at h1
  have h3 : (2 * k + 1) * (2 * k + 1) ≤ i := by exact_mod_cast h1
  omega

/-- Every cell of the square of radius `k` is visited within the first
`(2k+1)²` steps. -/
theorem spiralPos_square_surj (k : Nat) (x y : Int)
    (h : -(k : Int) ≤ x ∧ x ≤ k ∧ -(k : Int) ≤ y ∧ y ≤ k) :
    ∃ i : Nat, i < (2 * k + 1) * (2 * k + 1) ∧ spiralPos i = (x, y) := by
  classical
  have hsub : (Finset.range ((2 * k + 1) * (2 * k + 1))).image spiralPos ⊆
      Finset.Icc (-(k : Int)) k ×ˢ Finset.Icc (-(k : Int)) k := by
    intro p hp
    obtain ⟨i, hi, rfl⟩ := Finset.mem_image.1 hp
    have := spiralPos_mem_square k i (Finset.mem_range.1 hi)
    simp only [Finset.mem_product, Finset.mem_Icc]
    omega
  have hcardI : ((Finset.range ((2 * k + 1) * (2 * k + 1))).image spiralPos).card =
      (2 * k + 1) * (2 * k + 1) := by
    rw [Finset.card_image_of_injective _ spiralPos_injective, Finset.card_range]
  have hcardS : (Finset.Icc (-(k : Int)) k ×ˢ Finset.Icc (-(k : Int)) k).card =
      (2 * k + 1) * (2 * k + 1) := by
    rw [Finset.card_product, Int.card_Icc]
    have : ((k : Int) + 1 - -(k : Int)).toNat = 2 * k + 1 := by omega
    rw [this]
  have heq := Finset.eq_of_subset_of_card_le hsub (by rw [hcardI, hcardS])
  have hmem : (x, y) ∈ Finset.Icc (-(k : Int)) k ×ˢ Finset.Icc (-(k : Int)) k := by
    simp only [Finset.mem_product, Finset.mem_Icc]; omega
  rw [← heq] at hmem
  obtain ⟨i, hi, hp⟩ := Finset.mem_image.1 hmem
  exact ⟨i, Finset.mem_range.1 hi, hp⟩

/-! ## The background loop -/

theorem inWindow_iff (wt ht x y : Int) (hwt : 0 ≤ wt) (hht : 0 ≤ ht) :
    inWindow wt ht x y = true ↔
      (-(wt / 2) ≤ x ∧ x ≤ wt / 2) ∧ (-(ht / 2) ≤ y ∧ y ≤ ht / 2) := by
  unfold inWindow
  rw [decide_eq_true_iff, Int.neg_tdiv, Int.neg_tdiv, Int.tdiv_eq_ediv hwt (by decide),
    Int.tdiv_eq_ediv hht (by decide)]

/-- For a positive divisor the model of `IntDivideCeil` is the integer ceiling. -/
theorem IntDivideCeil_eq (a b : Int) (hb : 0 < b) : IntDivideCeil a b = -((-a) / b) := by
  obtain ⟨d, rfl⟩ := Int.eq_ofNat_of_zero_le hb.le
  unfold IntDivideCeil
  rw [← Rat.floor_intCast_div_natCast, ← Int.ceil_neg]
  congr 1
  push_cast
  ring

/-- C2 (as stated) fails: for `wt = 4`, `ht = 1` (the tile counts of a 150x40
canvas with `px = 10`) the window contains the tile `(-1, 0)`, which none of the
`t = 4` steps visits. -/
theorem spiral_window_gap :
    (1 : Int) ≤ 4 ∧ (1 : Int) ≤ 1 ∧ inWindow 4 1 (-1) 0 = true ∧
    (∀ i : Nat, i < ((4 : Int) * 1).toNat → spiralPos i ≠ (-1, 0)) ∧
    ¬ VisitsWindowOnce 4 1 := by
  have hno : ∀ i : Nat, i < ((4 : Int) * 1).toNat → spiralPos i ≠ (-1, 0) := by
    intro i hi
    have hi4 : i < 4 := hi
    interval_cases i <;> decide
  refine ⟨by decide, by decide, by decide, hno, ?_⟩
  intro h
  obtain ⟨i, ⟨hi, hp⟩, _⟩ := h (-1) 0 (by decide)
  exact hno i hi hp

/-- C2 (amended): for all tile counts `wt ≥ 1`, `ht ≥ 1` the `t = wt*ht` steps
of the loop visit no tile coordinate twice, and when `wt = ht` is odd they visit
every tile coordinate of the window exactly once. -/
theorem spiral_window_visits (wt ht : Int) (hwt : 1 ≤ wt) (hht : 1 ≤ ht) :
    (∀ i j : Nat, i < (wt * ht).toNat → j < (wt * ht).toNat →
      spiralPos i = spiralPos j → i = j) ∧
    (wt = ht → wt % 2 = 1 → VisitsWindowOnce wt ht) := by
  refine ⟨fun i j _ _ h => spiralPos_injective h, ?_⟩
  rintro rfl hodd x y hw
  rw [inWindow_iff wt wt x y (by omega) (by omega)] at hw
  obtain ⟨k, hk⟩ : ∃ k : Nat, wt = 2 * (k : Int) + 1 := ⟨(wt / 2).toNat, by omega⟩
  subst hk
  have ht : ((2 * (k : Int) + 1) * (2 * (k : Int) + 1)).toNat = (2 * k + 1) * (2 * k + 1) := by
    have : ((2 * (k : Int) + 1) * (2 * (k : Int) + 1)) = (((2 * k + 1) * (2 * k + 1) : Nat) : Int) := by
      push_cast; ring
    rw [this, Int.toNat_ofNat]
  rw [ht]
  obtain ⟨i, hi, hp⟩ := spiralPos_square_surj k x y (by omega)
  refine ⟨i, ⟨hi, hp⟩, ?_⟩
  rintro j ⟨_, hj⟩
  exact spiralPos_injective (hj.trans hp.symm)

/-- Instance of C2 (amended) for `wt = ht = 3`. -/
theorem spiral_window_visits_witness :
    (1 : Int) ≤ 3 ∧ (1 : Int) ≤ 3 ∧ (3 : Int) = 3 ∧ (3 : Int) % 2 = 1 ∧
    (∀ i j : Nat, i < ((3 : Int) * 3).toNat → j < ((3 : Int) * 3).toNat →
      spiralPos i = spiralPos j → i = j) ∧
    VisitsWindowOnce 3 3 :=
  ⟨by decide, by decide, rfl, by decide,
    (spiral_window_visits 3 3 (by decide) (by decide)).1,
    (spiral_window_visits 3 3 (by decide) (by decide)).2 rfl (by decide)⟩

theorem layout_lw (iw ih : Int) (pts : List Point) (px : Int) (hpx : 0 < px) :
    (layout iw ih pts px).lw = ((boundsLoop pts).1 + 1) * px ∧
    (layout iw ih pts px).lh = ((boundsLoop pts).2 + 1) * px := by
  unfold layout
  simp only [GetPointListBounds_eq pts px hpx, boundsOf, and_self]

theorem layout_pos (iw ih : Int) (pts : List Point) (px : Int) (hpx : 0 < px) :
    0 < (layout iw ih pts px).lw ∧ 0 < (layout iw ih pts px).lh := by
  obtain ⟨h1, h2⟩ := layout_lw iw ih pts px hpx
  obtain ⟨h3, h4⟩ := boundsLoop_nonneg pts
  rw [h1, h2]
  exact ⟨mul_pos (by omega) hpx, mul_pos (by omega) hpx⟩

/-- Tiles with different coordinates have disjoint pixel rectangles. -/
theorem tileRect_disjoint (l : Layout) (hw : 0 < l.lw) (hh : 0 < l.lh) (x y x' y' : Int)
    (hne : (x, y) ≠ (x', y')) (p : Point) :
    ¬ ((tileRect l x y).Contains p ∧ (tileRect l x' y').Contains p) := by
  rintro ⟨⟨a1, a2, a3, a4⟩, ⟨b1, b2, b3, b4⟩⟩
  simp only [tileRect] at a1 a2 a3 a4 b1 b2 b3 b4
  have hx : x = x' := by
    rcases lt_trichotomy x x' with h | h | h
    · have := mul_le_mul_of_nonneg_right (by omega : x + 1 ≤ x') hw.le
      rw [add_mul] at this; omega
    · exact h
    · have := mul_le_mul_of_nonneg_right (by omega : x' + 1 ≤ x) hw.le
      rw [add_mul] at this; omega
  have hy : y = y' := by
    rcases lt_trichotomy y y' with h | h | h
    · have := mul_le_mul_of_nonneg_right (by omega : y + 1 ≤ y') hh.le
      rw [add_mul] at this; omega
    · exact h
    · have := mul_le_mul_of_nonneg_right (by omega : y' + 1 ≤ y) hh.le
      rw [add_mul] at this; omega
  exact hne (by rw [hx, hy])

/-- A glyph cell with non-negative coordinates is painted inside the rectangle
of the tile at whose corner the logo copy is drawn. -/
theorem cellRect_subset_tileRect (iw ih : Int) (pts : List Point) (px : Int) (hpx : 0 < px)
    (pt : Point) (hpt : pt ∈ pts) (hX : 0 ≤ pt.X) (hY : 0 ≤ pt.Y) (x y : Int) (p : Point)
    (hp : (cellRect pt ((layout iw ih pts px).dx + x * (layout iw ih pts px).lw)
      ((layout iw ih pts px).dy + y * (layout iw ih pts px).lh) px).Contains p) :
    (tileRect (layout iw ih pts px) x y).Contains p := by
  obtain ⟨h1, h2⟩ := layout_lw iw ih pts px hpx
  obtain ⟨⟨_, hmx, _⟩, ⟨_, hmy, _⟩⟩ := boundsFold_spec pts 0 0
  have hmx1 : pt.X ≤ (boundsLoop pts).1 := hmx pt hpt
  have hmy1 : pt.Y ≤ (boundsLoop pts).2 := hmy pt hpt
  unfold cellRect at hp
  rw [Rect_of_le _ _ _ _ (by omega) (by omega)] at hp
  obtain ⟨a1, a2, a3, a4⟩ := hp
  simp only at a1 a2 a3 a4
  have e1 : 0 ≤ pt.X * px := mul_nonneg hX hpx.le
  have e2 : 0 ≤ pt.Y * px := mul_nonneg hY hpx.le
  have e3 := mul_le_mul_of_nonneg_right (by omega : pt.X + 1 ≤ (boundsLoop pts).1 + 1) hpx.le
  have e4 := mul_le_mul_of_nonneg_right (by omega : pt.Y + 1 ≤ (boundsLoop pts).2 + 1) hpx.le
  rw [add_mul, one_mul] at e3 e4
  unfold Rectangle.Contains tileRect
  simp only
  omega

/-- C3: the spiral positions of two different steps differ (the walk is
injective), so for `px > 0` the `lw × lh` pixel rectangles at the offsets
`(dx + x*lw, dy + y*lh)` of two different steps are disjoint, and no pixel is
painted by both logo copies (for glyph cells with non-negative coordinates, as
in the hard-coded logo). -/
theorem spiral_tiles_disjoint (i j : Nat) (hij : i ≠ j) (iw ih px : Int) (hpx : 0 < px)
    (pts : List Point) :
    spiralPos i ≠ spiralPos j ∧
    (∀ p : Point,
      ¬ ((tileRect (layout iw ih pts px) (spiralPos i).1 (spiralPos i).2).Contains p ∧
         (tileRect (layout iw ih pts px) (spiralPos j).1 (spiralPos j).2).Contains p)) ∧
    (∀ pt ∈ pts, ∀ qt ∈ pts, 0 ≤ pt.X → 0 ≤ pt.Y → 0 ≤ qt.X → 0 ≤ qt.Y → ∀ p : Point,
      ¬ ((cellRect pt ((layout iw ih pts px).dx + (spiralPos i).1 * (layout iw ih pts px).lw)
            ((layout iw ih pts px).dy + (spiralPos i).2 * (layout iw ih pts px).lh) px).Contains p ∧
         (cellRect qt ((layout iw ih pts px).dx + (spiralPos j).1 * (layout iw ih pts px).lw)
            ((layout iw ih pts px).dy + (spiralPos j).2 * (layout iw ih pts px).lh) px).Contains p)) := by
  have hne : spiralPos i ≠ spiralPos j := fun h => hij (spiralPos_injective h)
  obtain ⟨hw, hh⟩ := layout_pos iw ih pts px hpx
  have hdis : ∀ p : Point,
      ¬ ((tileRect (layout iw ih pts px) (spiralPos i).1 (spiralPos i).2).Contains p ∧
         (tileRect (layout iw ih pts px) (spiralPos j).1 (spiralPos j).2).Contains p) :=
    fun p => tileRect_disjoint _ hw hh _ _ _ _ hne p
  refine ⟨hne, hdis, ?_⟩
  rintro pt hpt qt hqt h1 h2 h3 h4 p ⟨hp, hq⟩
  exact hdis p ⟨cellRect_subset_tileRect iw ih pts px hpx pt hpt h1 h2 _ _ p hp,
    cellRect_subset_tileRect iw ih pts px hpx qt hqt h3 h4 _ _ p hq⟩

/-- Instance of C3 for the steps `0` and `1` on an 800x600 canvas with `px = 10`. -/
theorem spiral_tiles_disjoint_witness :
    (0 : Nat) ≠ 1 ∧ (0 : Int) < 10 ∧ spiralPos 0 ≠ spiralPos 1 ∧
    (∀ p : Point,
      ¬ ((tileRect (layout 800 600 logo 10) (spiralPos 0).1 (spiralPos 0).2).Contains p ∧
         (tileRect (layout 800 600 logo 10) (spiralPos 1).1 (spiralPos 1).2).Contains p)) ∧
    (∀ pt ∈ logo, ∀ qt ∈ logo, 0 ≤ pt.X → 0 ≤ pt.Y → 0 ≤ qt.X → 0 ≤ qt.Y → ∀ p : Point,
      ¬ ((cellRect pt ((layout 800 600 logo 10).dx + (spiralPos 0).1 * (layout 800 600 logo 10).lw)
            ((layout 800 600 logo 10).dy + (spiralPos 0).2 * (layout 800 600 logo 10).lh) 10).Contains p ∧
         (cellRect qt ((layout 800 600 logo 10).dx + (spiralPos 1).1 * (layout 800 600 logo 10).lw)
            ((layout 800 600 logo 10).dy + (spiralPos 1).2 * (layout 800 600 logo 10).lh) 10).Contains p)) :=
  ⟨by decide, by decide, spiral_tiles_disjoint 0 1 (by decide) 800 600 10 (by decide) logo⟩

/-- The loop started at iteration `i` in the state `spiralAt i` appends the
calls of the iterations `i, …, i + n - 1`. -/
theorem spiralLoop_calls (l : Layout) (n i : Nat) (acc : List DrawCall) :
    spiralLoop (fun acc p lx ly => acc ++ [DrawCall.mk p lx ly]) l.dx l.dy l.lw l.lh l.wt l.ht
      n i (spiralAt i) acc = acc ++ (List.range' i n).filterMap (stepCall l) := by
  induction n generalizing i acc with
  | zero => simp [spiralLoop]
  | succ n ih =>
    have hstep : spiralStep (spiralAt i) = spiralAt (i + 1) := rfl
    simp only [spiralLoop, hstep, ih, List.range'_succ, List.filterMap_cons]
    unfold stepCall
    by_cases hw : inWindow l.wt l.ht (spiralAt i).x (spiralAt i).y = true
    · simp [hw]
    · simp [hw]

/-- The calls made by `DrawBackground` are those of the steps `0, …, t - 1`
whose spiral position passes the window test, in step order. -/
theorem backgroundCalls_eq (iw ih : Int) (pts : List Point) (px : Int) :
    backgroundCalls iw ih pts px =
      (List.range (layout iw ih pts px).t.toNat).filterMap (stepCall (layout iw ih pts px)) := by
  unfold backgroundCalls DrawBackground
  simp only
  have h := spiralLoop_calls (layout iw ih pts px) (layout iw ih pts px).t.toNat 0 []
  rw [List.nil_append] at h
  rw [List.range_eq_range']
  exact h

/-- The layout of a 150x40 canvas with the hard-coded logo and `px = 10`. -/
theorem layout_150_40 : layout 150 40 logo 10 = ⟨50, 40, 50, 0, 4, 1, 4⟩ := by
  have hb : GetPointListBounds logo 10 = ⟨⟨0, 0⟩, ⟨50, 40⟩⟩ := by decide
  unfold layout
  simp only [hb]
  rw [IntDivideCeil_eq _ _ (by decide), IntDivideCeil_eq _ _ (by decide)]
  decide

/-- C1 (code check at the failing input): on a 150x40 canvas with `px = 10`
the logo is 50x40, `dx = 50`, `dy = 0`, `wt = 4`, `ht = 1` and `t = 4`; the
loop draws only the tiles at `x = 50` and `x = 100`, while tile `(-1, 0)`,
whose rectangle `[0,50) x [0,40)` lies on the canvas, is visited by none of the
four steps: the canvas is not covered. -/
theorem DrawBackground_leaves_gap :
    (0 : Int) < 10 ∧ (GetPointListBounds logo 10).Max.X ≤ 150 ∧
    (GetPointListBounds logo 10).Max.Y ≤ 40 ∧
    layout 150 40 logo 10 = ⟨50, 40, 50, 0, 4, 1, 4⟩ ∧
    backgroundCalls 150 40 logo 10 = [⟨0, 50, 0⟩, ⟨1, 100, 0⟩] ∧
    TileMeetsCanvas 150 40 (layout 150 40 logo 10) (-1) 0 ∧
    (∀ i : Nat, i < (layout 150 40 logo 10).t.toNat → spiralPos i ≠ (-1, 0)) ∧
    ¬ CoversCanvas 150 40 logo 10 := by
  have hno : ∀ i : Nat, i < (layout 150 40 logo 10).t.toNat → spiralPos i ≠ (-1, 0) := by
    intro i hi
    rw [layout_150_40] at hi
    have hi4 : i < 4 := hi
    interval_cases i <;> decide
  have hmeet : TileMeetsCanvas 150 40 (layout 150 40 logo 10) (-1) 0 := by
    rw [layout_150_40]
    exact ⟨⟨0, 0⟩, by decide, by decide⟩
  refine ⟨by decide, by decide, by decide, layout_150_40, ?_, hmeet, hno, ?_⟩
  · unfold backgroundCalls DrawBackground
    rw [layout_150_40]
    decide
  · intro h
    obtain ⟨i, hi, hp, _⟩ := h (-1) 0 hmeet
    exact hno i hi hp

/-! ## Input resolution, continued -/

theorem cut_of_mem (sep : Char) (s : List Char) (h : sep ∈ s) :
    ∃ a r, cut sep s = some (a, r) := by
  induction s with
  | nil => simp at h
  | cons c cs ih =>
    unfold cut
    by_cases hc : c = sep
    · exact ⟨[], cs, by rw [if_pos hc]⟩
    · rw [if_neg hc]
      have hm : sep ∈ cs := by
        rcases List.mem_cons.1 h with h1 | h1
        · exact absurd h1.symm hc
        · exact h1
      obtain ⟨a, r, har⟩ := ih hm
      exact ⟨c :: a, r, by rw [har]; rfl⟩

/-- A string containing `sep` splits at the first `sep`. -/
theorem exists_first_sep (sep : Char) (s : List Char) (h : sep ∈ s) :
    ∃ a r, s = a ++ sep :: r ∧ sep ∉ a := by
  obtain ⟨a, r, har⟩ := cut_of_mem sep s h
  exact ⟨a, r, cut_some_mem sep s a r har⟩

theorem Atoi_error_or_ok (s : List Char) : (∃ e, Atoi s = .error e) ∨ (∃ n, Atoi s = .ok n) := by
  cases h : Atoi s with
  | error e => exact Or.inl ⟨e, rfl⟩
  | ok n => exact Or.inr ⟨n, rfl⟩

/-- The three-field path of `ParseColour`: the outcome on `a,b,c` with
comma-free `a` and `b`. -/
theorem ParseColour_split (a b c : List Char) (ha : ',' ∉ a) (hb : ',' ∉ b) :
    ParseColour (a ++ ',' :: (b ++ ',' :: c)) =
      match Atoi a with
      | .error e => .ret (none, some e)
      | .ok r =>
        match Atoi b with
        | .error e => .ret (none, some e)
        | .ok g =>
          match Atoi c with
          | .error e => .ret (none, some e)
          | .ok bl => .ret (some ⟨uint8 r, uint8 g, uint8 bl, 0xff⟩, none) := by
  cases h1 : Atoi a <;> cases h2 : Atoi b <;> cases h3 : Atoi c <;>
    simp [ParseColour, SplitN_three a b c ',' ha hb, h1, h2, h3]

/-- C11: an input with at least two commas splits into a comma-free first
field `a`, a comma-free second field `b` and the remainder `c`; if one of the
three is rejected by `Atoi`, `ParseColour` returns a nil colour and a non-nil
error.  In particular this happens when the remainder still holds a comma,
that is, when more than three fields are given. -/
theorem ParseColour_field_error (s : List Char) (h2 : 2 ≤ s.count ',') :
    ∃ a b c : List Char, s = a ++ ',' :: (b ++ ',' :: c) ∧ ',' ∉ a ∧ ',' ∉ b ∧
      (((∃ e, Atoi a = .error e) ∨ (∃ e, Atoi b = .error e) ∨ (∃ e, Atoi c = .error e)) →
        ∃ e, ParseColour s = .ret (none, some e)) ∧
      (',' ∈ c → ∃ e, ParseColour s = .ret (none, some e)) := by
  have hm : ',' ∈ s := List.count_pos_iff.1 (by omega)
  obtain ⟨a, r, hs, ha⟩ := exists_first_sep ',' s hm
  have hr : ',' ∈ r := by
    apply List.count_pos_iff.1
    have hc : s.count ',' = a.count ',' + (1 + r.count ',') := by
      rw [hs, List.count_append, List.count_cons_self, Nat.add_comm (List.count ',' r) 1]
    rw [List.count_eq_zero_of_not_mem ha] at hc
    omega
  obtain ⟨b, c, hr2, hb⟩ := exists_first_sep ',' r hr
  subst hr2
  have hmain : ((∃ e, Atoi a = .error e) ∨ (∃ e, Atoi b = .error e) ∨ (∃ e, Atoi c = .error e)) →
      ∃ e, ParseColour s = .ret (none, some e) := by
    intro hfail
    rw [hs, ParseColour_split a b c ha hb]
    rcases Atoi_error_or_ok a with ⟨e, he⟩ | ⟨x, hx⟩
    · exact ⟨e, by rw [he]⟩
    · rcases Atoi_error_or_ok b with ⟨e, he⟩ | ⟨y, hy⟩
      · exact ⟨e, by rw [hx, he]⟩
      · rcases Atoi_error_or_ok c with ⟨e, he⟩ | ⟨z, hz⟩
        · exact ⟨e, by rw [hx, hy, he]⟩
        · rcases hfail with ⟨e, he⟩ | ⟨e, he⟩ | ⟨e, he⟩
          · rw [hx] at he; exact absurd he (by simp)
          · rw [hy] at he; exact absurd he (by simp)
          · rw [hz] at he; exact absurd he (by simp)
  refine ⟨a, b, c, hs, ha, hb, hmain, ?_⟩
  intro hc
  apply hmain
  rcases Atoi_error_or_ok c with he | ⟨z, hz⟩
  · exact Or.inr (Or.inr he)
  · exact absurd hc (Atoi_not_mem c z hz ',' (by decide))

/-- Instance of C11 at the four-field input `"1,2,3,4"`, which is rejected. -/
theorem ParseColour_field_error_witness :
    2 ≤ "1,2,3,4".toList.count ',' ∧
    (∃ a b c : List Char, "1,2,3,4".toList = a ++ ',' :: (b ++ ',' :: c) ∧ ',' ∉ a ∧ ',' ∉ b ∧
      (((∃ e, Atoi a = .error e) ∨ (∃ e, Atoi b = .error e) ∨ (∃ e, Atoi c = .error e)) →
        ∃ e, ParseColour "1,2,3,4".toList = .ret (none, some e)) ∧
      (',' ∈ c → ∃ e, ParseColour "1,2,3,4".toList = .ret (none, some e))) ∧
    ParseColour "1,2,3,4".toList = .ret (none, some .errSyntax) :=
  ⟨by decide, ParseColour_field_error "1,2,3,4".toList (by decide), by decide⟩

/-- The two-part path of `ParseDimensions`: the outcome on `a ++ "x" ++ b` with
`a` free of `x`. -/
theorem ParseDimensions_split (a b : List Char) (ha : 'x' ∉ a) :
    ParseDimensions (a ++ 'x' :: b) =
      match Atoi a with
      | .error _ => .ret (0, 0, none)
      | .ok x =>
        match Atoi b with
        | .error _ => .ret (0, 0, none)
        | .ok y => .ret (x, y, none) := by
  cases h1 : Atoi a <;> cases h2 : Atoi b <;>
    simp [ParseDimensions, SplitN_two_some a b 'x' ha, h1, h2]

/-- The one-part path of `ParseDimensions`: the outcome on an input without `x`. -/
theorem ParseDimensions_no_x (s : List Char) (hs : 'x' ∉ s) :
    ParseDimensions s =
      match Atoi s with
      | .error e => .ret (0, 0, some e)
      | .ok x => .ret (x, x, none) := by
  cases h1 : Atoi s <;> simp [ParseDimensions, SplitN_two_none s 'x' hs, h1]

/-- C15: the behaviour of the two-part path as written.  An input containing
`x` splits at the first `x` into `a` and `b`, and if `Atoi` rejects `a` or `b`
then `ParseDimensions` returns `(0, 0)` with a nil error.  Consequently
`ParseDimensions` returns a non-nil error exactly when the input has no `x`
and is rejected by `Atoi`. -/
theorem ParseDimensions_reference (s : List Char) :
    ('x' ∈ s → ∃ a b : List Char, s = a ++ 'x' :: b ∧ 'x' ∉ a ∧
      (((∃ e, Atoi a = .error e) ∨ (∃ e, Atoi b = .error e)) →
        ParseDimensions s = .ret (0, 0, none))) ∧
    ((∃ x y e, ParseDimensions s = .ret (x, y, some e)) ↔
      ('x' ∉ s ∧ ∃ e, Atoi s = .error e)) := by
  constructor
  · intro hx
    obtain ⟨a, b, hs, ha⟩ := exists_first_sep 'x' s hx
    refine ⟨a, b, hs, ha, ?_⟩
    intro hfail
    rw [hs, ParseDimensions_split a b ha]
    rcases Atoi_error_or_ok a with ⟨e, he⟩ | ⟨x, hxa⟩
    · rw [he]
    · rcases Atoi_error_or_ok b with ⟨e, he⟩ | ⟨y, hyb⟩
      · rw [hxa, he]
      · rcases hfail with ⟨e, he⟩ | ⟨e, he⟩
        · rw [hxa] at he; exact absurd he (by simp)
        · rw [hyb] at he; exact absurd he (by simp)
  · constructor
    · rintro ⟨x, y, e, h⟩
      by_cases hx : 'x' ∈ s
      · exfalso
        obtain ⟨a, b, hs, ha⟩ := exists_first_sep 'x' s hx
        rw [hs, ParseDimensions_split a b ha] at h
        cases ha1 : Atoi a with
        | error e1 => rw [ha1] at h; simp at h
        | ok x1 =>
          rw [ha1] at h
          cases hb1 : Atoi b with
          | error e1 => rw [hb1] at h; simp at h
          | ok y1 => rw [hb1] at h; simp at h
      · refine ⟨hx, ?_⟩
        rw [ParseDimensions_no_x s hx] at h
        cases hs1 : Atoi s with
        | error e1 => exact ⟨e1, rfl⟩
        | ok x1 => rw [hs1] at h; simp at h
    · rintro ⟨hx, e, he⟩
      exact ⟨0, 0, e, by rw [ParseDimensions_no_x s hx, he]⟩

/-- Instances of C15 at the inputs `"abcx600"` and `"1x2x3"`. -/
theorem ParseDimensions_reference_examples :
    ParseDimensions "abcx600".toList = .ret (0, 0, none) ∧
    ParseDimensions "1x2x3".toList = .ret (0, 0, none) ∧
    ParseDimensions "abc".toList = .ret (0, 0, some .errSyntax) := by
  refine ⟨by decide, by decide, by decide⟩

/-! ## Squares and parity of the spiral -/

/-- C16: for every `k`, the tile coordinates visited during the first
`(2k+1)²` steps (step indices `0` to `(2k+1)² - 1`, starting at `(0,0)` with
direction `(0,-1)`) are exactly those of the square `-k ≤ x ≤ k`,
`-k ≤ y ≤ k`. -/
theorem spiral_square (k : Nat) (x y : Int) :
    (∃ i : Nat, i < (2 * k + 1) ^ 2 ∧ spiralPos i = (x, y)) ↔
      (-(k : Int) ≤ x ∧ x ≤ k ∧ -(k : Int) ≤ y ∧ y ≤ k) := by
  rw [pow_two]
  constructor
  · rintro ⟨i, hi, hp⟩
    have h := spiralPos_mem_square k i hi
    rw [hp] at h
    exact h
  · exact spiralPos_square_surj k x y

theorem spiralIndex_parity (x y : Int) : spiralIndex x y % 2 = (x + y) % 2 := by
  have hx : 4 * x * x = 2 * (2 * x * x) := by ring
  have hy : 4 * y * y = 2 * (2 * y * y) := by ring
  unfold spiralIndex
  split_ifs <;> omega

/-- The tile coordinate and the step index have the same parity. -/
theorem spiralPos_parity (i : Nat) :
    ((spiralPos i).1 + (spiralPos i).2) % 2 = (i : Int) % 2 := by
  rw [← spiralIndex_parity, spiralIndex_spiralPos]

theorem spiralDir_unit (x y : Int) :
    spiralDir x y = (0, -1) ∨ spiralDir x y = (1, 0) ∨ spiralDir x y = (0, 1) ∨
      spiralDir x y = (-1, 0) := by
  unfold spiralDir
  split_ifs <;> simp

/-- Every step moves by exactly one unit along one axis. -/
theorem spiralPos_succ (i : Nat) :
    ((spiralPos (i + 1)).1 - (spiralPos i).1).natAbs +
      ((spiralPos (i + 1)).2 - (spiralPos i).2).natAbs = 1 := by
  obtain ⟨x, y, hs, _⟩ := spiralAt_arrive i
  have h1 : spiralAt (i + 1) = spiralStep (spiralAt i) := rfl
  simp only [spiralPos, h1, hs, arrive, spiralStep]
  rcases spiralDir_unit x y with h | h | h | h <;> rw [h] <;> split_ifs <;> simp

/-- C17: at every step `i` the position satisfies `(x + y) mod 2 = i mod 2`,
every step moving by one unit along one axis; hence a background tile drawn at
step `i` uses the palette `palettes[(x + y) mod 2]`, and two steps whose tiles
share an edge have different palette indices. -/
theorem spiral_checkerboard (i : Nat) :
    ((spiralPos i).1 + (spiralPos i).2) % 2 = (i : Int) % 2 ∧
    ((spiralPos (i + 1)).1 - (spiralPos i).1).natAbs +
      ((spiralPos (i + 1)).2 - (spiralPos i).2).natAbs = 1 ∧
    (∀ (l : Layout) (c : DrawCall), stepCall l i = some c →
      (c.palette : Int) = ((spiralPos i).1 + (spiralPos i).2) % 2 ∧
      c.lx = l.dx + (spiralPos i).1 * l.lw ∧ c.ly = l.dy + (spiralPos i).2 * l.lh) ∧
    (∀ j : Nat, ((spiralPos i).1 - (spiralPos j).1).natAbs +
        ((spiralPos i).2 - (spiralPos j).2).natAbs = 1 → i % 2 ≠ j % 2) := by
  refine ⟨spiralPos_parity i, spiralPos_succ i, ?_, ?_⟩
  · intro l c hc
    unfold stepCall at hc
    split_ifs at hc
    simp only [Option.some.injEq] at hc
    subst hc
    refine ⟨?_, rfl, rfl⟩
    rw [spiralPos_parity]
    simp
  · intro j hadj
    have hi := spiralPos_parity i
    have hj := spiralPos_parity j
    omega

/-! ## The background loop as a fold over the steps -/

/-- The loop started at iteration `i` in the state `spiralAt i` is the fold of
its body over the iterations `i, …, i + n - 1`. -/
theorem spiralLoop_eq_foldl {σ : Type} (f : σ → Nat → Int → Int → σ)
    (dx dy lw lh wt ht : Int) (n i : Nat) (img : σ) :
    spiralLoop f dx dy lw lh wt ht n i (spiralAt i) img =
      (List.range' i n).foldl (fun s k =>
        if inWindow wt ht (spiralPos k).1 (spiralPos k).2 then
          f s (k % 2) (dx + (spiralPos k).1 * lw) (dy + (spiralPos k).2 * lh)
        else s) img := by
  induction n generalizing i img with
  | zero => simp [spiralLoop]
  | succ n ih =>
    have hstep : spiralStep (spiralAt i) = spiralAt (i + 1) := rfl
    simp only [spiralLoop, hstep, ih, List.range'_succ, List.foldl_cons, spiralPos]

/-- An invariant of the loop body (for the palette indices `0` and `1`) holds
after the loop. -/
theorem spiralLoop_invariant {σ : Type} (f : σ → Nat → Int → Int → σ) (P : σ → Prop)
    (hf : ∀ s p lx ly, p < 2 → P s → P (f s p lx ly))
    (dx dy lw lh wt ht : Int) (n i : Nat) (s : SpiralState) (img : σ) (h : P img) :
    P (spiralLoop f dx dy lw lh wt ht n i s img) := by
  induction n generalizing i s img with
  | zero => exact h
  | succ n ih =>
    simp only [spiralLoop]
    apply ih
    split_ifs
    · exact hf _ _ _ _ (Nat.mod_lt _ (by decide)) h
    · exact h

theorem palettes_getD (i : Nat) :
    palettes.getD (i % 2) [] = if i % 2 = 0 then [6, 7, 8, 9, 10] else [11, 12, 13, 14, 15] := by
  rcases Nat.mod_two_eq_zero_or_one i with h | h <;> rw [h] <;> rfl

/-- C14: `DrawBackground` is the fold over the step indices `0, …, t - 1` in
which a step whose spiral position `(x, y)` passes the window test draws one
logo copy at `(dx + x*lw, dy + y*lh)` with the palette `palettes[i mod 2]`,
shades 6 to 10 for even `i` and 11 to 15 for odd `i`, and a step outside the
window leaves the canvas and the random source untouched. -/
theorem DrawBackground_steps (img : Image) (pts : List Point) (px : Int) (rng : Rand) :
    DrawBackgroundImage img pts px rng =
      (List.range (layout img.bounds.Max.X img.bounds.Max.Y pts px).t.toNat).foldl
        (fun st i =>
          if inWindow (layout img.bounds.Max.X img.bounds.Max.Y pts px).wt
              (layout img.bounds.Max.X img.bounds.Max.Y pts px).ht
              (spiralPos i).1 (spiralPos i).2 then
            DrawLogo st.1 pts (if i % 2 = 0 then [6, 7, 8, 9, 10] else [11, 12, 13, 14, 15])
              ((layout img.bounds.Max.X img.bounds.Max.Y pts px).dx +
                (spiralPos i).1 * (layout img.bounds.Max.X img.bounds.Max.Y pts px).lw)
              ((layout img.bounds.Max.X img.bounds.Max.Y pts px).dy +
                (spiralPos i).2 * (layout img.bounds.Max.X img.bounds.Max.Y pts px).lh) px st.2
          else st) (img, rng) := by
  unfold DrawBackgroundImage DrawBackground
  simp only
  have h := spiralLoop_eq_foldl (drawBackgroundLogo pts px)
    (layout img.bounds.Max.X img.bounds.Max.Y pts px).dx
    (layout img.bounds.Max.X img.bounds.Max.Y pts px).dy
    (layout img.bounds.Max.X img.bounds.Max.Y pts px).lw
    (layout img.bounds.Max.X img.bounds.Max.Y pts px).lh
    (layout img.bounds.Max.X img.bounds.Max.Y pts px).wt
    (layout img.bounds.Max.X img.bounds.Max.Y pts px).ht
    (layout img.bounds.Max.X img.bounds.Max.Y pts px).t.toNat 0 (img, rng)
  rw [List.range_eq_range']
  rw [show spiralStart = spiralAt 0 from rfl, h]
  simp only [drawBackgroundLogo, palettes_getD]

/-! ## Colours on the canvas -/

theorem getD_mod_mem (l : List Nat) (hne : l ≠ []) (n : Nat) : l.getD (n % l.length) 0 ∈ l := by
  have hlen : 0 < l.length := List.length_pos.2 hne
  have hlt : n % l.length < l.length := Nat.mod_lt _ hlen
  rw [List.getD_eq_getElem l 0 hlt]
  exact List.getElem_mem hlt

theorem DrawLogo_cons (img : Image) (pt : Point) (pts : List Point) (colours : List Nat)
    (x y px : Int) (rng : Rand) :
    DrawLogo img (pt :: pts) colours x y px rng =
      DrawLogo (fillRect img (cellRect pt x y px)
        (grayRGBA (colours.getD (rng.src rng.pos % colours.length) 0))) pts colours x y px
        ⟨rng.src, rng.pos + 1⟩ := rfl

/-- A property of canvases kept by every fill with a shade of the palette is
kept by `DrawLogo`. -/
theorem DrawLogo_invariant (P : Image → Prop) (colours : List Nat) (hne : colours ≠ [])
    (hP : ∀ (img : Image) (r : Rectangle) (v : Nat), v ∈ colours → P img →
      P (fillRect img r (grayRGBA v)))
    (pts : List Point) (x y px : Int) (img : Image) (rng : Rand) (h : P img) :
    P (DrawLogo img pts colours x y px rng).1 := by
  induction pts generalizing img rng with
  | nil => exact h
  | cons pt pts ih =>
    rw [DrawLogo_cons]
    exact ih _ _ (hP img _ _ (getD_mod_mem colours hne _) h)

theorem DrawLogo_bounds (img : Image) (pts : List Point) (colours : List Nat) (x y px : Int)
    (rng : Rand) : (DrawLogo img pts colours x y px rng).1.bounds = img.bounds := by
  induction pts generalizing img rng with
  | nil => rfl
  | cons pt pts ih => rw [DrawLogo_cons, ih]; rfl

/-- After `DrawLogo`, every canvas pixel inside one of the drawn glyph cells
holds a shade of the palette. -/
theorem DrawLogo_cells (colours : List Nat) (hne : colours ≠ []) (pts : List Point)
    (x y px : Int) (img : Image) (rng : Rand) (pt : Point) (hpt : pt ∈ pts) (p q : Int)
    (hc : (cellRect pt x y px).Contains ⟨p, q⟩) (hb : img.bounds.Contains ⟨p, q⟩) :
    ∃ v ∈ colours, (DrawLogo img pts colours x y px rng).1.pix p q = grayRGBA v := by
  induction pts generalizing img rng with
  | nil => simp at hpt
  | cons pt0 pts ih =>
    rw [DrawLogo_cons]
    rcases List.mem_cons.1 hpt with rfl | hmem
    · apply DrawLogo_invariant (fun im => ∃ v ∈ colours, im.pix p q = grayRGBA v) colours hne
      · rintro im r v hv ⟨w, hw, hpw⟩
        simp only [fillRect]
        split_ifs
        · exact ⟨v, hv, rfl⟩
        · exact ⟨w, hw, hpw⟩
      · refine ⟨colours.getD (rng.src rng.pos % colours.length) 0,
          getD_mod_mem colours hne (rng.src rng.pos), ?_⟩
        simp only [fillRect]
        rw [if_pos ⟨hc, hb⟩]
    · exact ih _ _ hmem hb

/-- The colours allowed on the final canvas: the background colour and the
fully covering grays of the palettes. -/
theorem allowed_fill (bg : RGBA) (b : Rectangle) (shades : List Nat) (img : Image)
    (r : Rectangle) (v : Nat) (hv : v ∈ shades)
    (h : img.bounds = b ∧ ∀ x y : Int, b.Contains ⟨x, y⟩ →
      (img.pix x y = bg ∨ ∃ w ∈ shades, img.pix x y = grayRGBA w)) :
    (fillRect img r (grayRGBA v)).bounds = b ∧ ∀ x y : Int, b.Contains ⟨x, y⟩ →
      ((fillRect img r (grayRGBA v)).pix x y = bg ∨
        ∃ w ∈ shades, (fillRect img r (grayRGBA v)).pix x y = grayRGBA w) := by
  refine ⟨h.1, ?_⟩
  intro x y hxy
  simp only [fillRect]
  split_ifs
  · exact Or.inr ⟨v, hv, rfl⟩
  · exact h.2 x y hxy

theorem palettes_subset (p : Nat) (hp : p < 2) : ∀ v ∈ palettes.getD p [], v ∈ paletteShades := by
  interval_cases p <;> decide

theorem palettes_ne_nil (p : Nat) (hp : p < 2) : palettes.getD p [] ≠ [] := by
  interval_cases p <;> decide

/-- C12: for every canvas size `W, H > 0`, tile size `px > 0`, background
colour `bg` and every stream of random draws, the canvas produced by the
pipeline of `main` has the bounds `(0,0)-(W,H)` and each of its pixels holds
either `bg` or a fully covering gray whose level is one of the palette shades
6 to 15, 215, 225, 235, 245, 255. -/
theorem mainImage_colours (W H px : Int) (hW : 0 < W) (hH : 0 < H) (hpx : 0 < px) (bg : RGBA)
    (src : Nat → Nat) :
    (mainImage W H bg px src).bounds = ⟨⟨0, 0⟩, ⟨W, H⟩⟩ ∧
    ∀ x y : Int, 0 ≤ x → x < W → 0 ≤ y → y < H →
      ((mainImage W H bg px src).pix x y = bg ∨
        ∃ v ∈ paletteShades, (mainImage W H bg px src).pix x y = grayRGBA v) := by
  have hpx0 := hpx
  have hrect : Rect 0 0 W H = ⟨⟨0, 0⟩, ⟨W, H⟩⟩ := Rect_of_le 0 0 W H hW.le hH.le
  have key : (mainImage W H bg px src).bounds = ⟨⟨0, 0⟩, ⟨W, H⟩⟩ ∧
      ∀ x y : Int, (Rectangle.mk ⟨0, 0⟩ ⟨W, H⟩).Contains ⟨x, y⟩ →
        ((mainImage W H bg px src).pix x y = bg ∨
          ∃ v ∈ paletteShades, (mainImage W H bg px src).pix x y = grayRGBA v) := by
    unfold mainImage
    simp only
    apply DrawLogo_invariant (fun im => im.bounds = ⟨⟨0, 0⟩, ⟨W, H⟩⟩ ∧
      ∀ x y : Int, (Rectangle.mk ⟨0, 0⟩ ⟨W, H⟩).Contains ⟨x, y⟩ →
        (im.pix x y = bg ∨ ∃ v ∈ paletteShades, im.pix x y = grayRGBA v)) fgPalette (by decide)
    · intro im r v hv h
      exact allowed_fill bg _ paletteShades im r v (by revert v; decide) h
    · unfold DrawBackgroundImage DrawBackground
      simp only
      apply spiralLoop_invariant (drawBackgroundLogo logo px) (fun st => st.1.bounds = ⟨⟨0, 0⟩, ⟨W, H⟩⟩ ∧
        ∀ x y : Int, (Rectangle.mk ⟨0, 0⟩ ⟨W, H⟩).Contains ⟨x, y⟩ →
          (st.1.pix x y = bg ∨ ∃ v ∈ paletteShades, st.1.pix x y = grayRGBA v))
      · intro st p lx ly hp h
        unfold drawBackgroundLogo
        apply DrawLogo_invariant (fun im => im.bounds = ⟨⟨0, 0⟩, ⟨W, H⟩⟩ ∧
          ∀ x y : Int, (Rectangle.mk ⟨0, 0⟩ ⟨W, H⟩).Contains ⟨x, y⟩ →
            (im.pix x y = bg ∨ ∃ v ∈ paletteShades, im.pix x y = grayRGBA v))
          (palettes.getD p []) (palettes_ne_nil p hp)
        · intro im r v hv h1
          exact allowed_fill bg _ paletteShades im r v (palettes_subset p hp v hv) h1
        · exact h
      · refine ⟨hrect, ?_⟩
        intro x y hxy
        left
        simp only [fillRect, NewRGBA]
        rw [if_pos ⟨by rw [hrect]; exact hxy, by rw [hrect]; exact hxy⟩]
  refine ⟨key.1, ?_⟩
  intro x y hx0 hx1 hy0 hy1
  exact key.2 x y ⟨hx0, hx1, hy0, hy1⟩

/-- Instance of C12 on a 40x40 canvas with `px = 10`, the white background
`255,255,255` and the constant stream of draws. -/
theorem mainImage_colours_witness :
    (0 : Int) < 40 ∧ (0 : Int) < 10 ∧
    (mainImage 40 40 ⟨255, 255, 255, 255⟩ 10 (fun _ => 0)).bounds = ⟨⟨0, 0⟩, ⟨40, 40⟩⟩ ∧
    ∀ x y : Int, 0 ≤ x → x < 40 → 0 ≤ y → y < 40 →
      ((mainImage 40 40 ⟨255, 255, 255, 255⟩ 10 (fun _ => 0)).pix x y = ⟨255, 255, 255, 255⟩ ∨
        ∃ v ∈ paletteShades,
          (mainImage 40 40 ⟨255, 255, 255, 255⟩ 10 (fun _ => 0)).pix x y = grayRGBA v) :=
  ⟨by decide, by decide,
    mainImage_colours 40 40 10 (by decide) (by decide) (by decide) ⟨255, 255, 255, 255⟩ (fun _ => 0)⟩

/-! ## Centering and the foreground logo -/

theorem logo_range : ∀ pt ∈ logo, 0 ≤ pt.X ∧ pt.X ≤ 4 ∧ 0 ≤ pt.Y ∧ pt.Y ≤ 3 := by
  decide

theorem logo_bounds (px : Int) (hpx : 0 < px) :
    GetPointListBounds logo px = ⟨⟨0, 0⟩, ⟨5 * px, 4 * px⟩⟩ := by
  rw [GetPointListBounds_eq logo px hpx]
  have h : boundsLoop logo = (4, 3) := by decide
  rw [h]
  simp only [boundsOf]
  norm_num

theorem mainOffset_eq (iw ih px : Int) :
    mainOffset iw ih px = ((layout iw ih logo px).dx, (layout iw ih logo px).dy) := rfl

theorem DrawBackgroundImage_bounds (img : Image) (pts : List Point) (px : Int) (rng : Rand) :
    (DrawBackgroundImage img pts px rng).1.bounds = img.bounds := by
  unfold DrawBackgroundImage DrawBackground
  simp only
  apply spiralLoop_invariant (drawBackgroundLogo pts px) (fun st => st.1.bounds = img.bounds)
  · intro st p lx ly _ h
    unfold drawBackgroundLogo
    rw [DrawLogo_bounds]
    exact h
  · rfl

/-- C13: for every `px > 0` and every canvas at least as large as the logo
(`5*px ≤ W`, `4*px ≤ H`, the logo being `5*px` wide and `4*px` high), the
final canvas is the result of one `DrawLogo` call with the near-white palette
at the centering offset `(dx, dy) = ((W - 5*px)/2, (H - 4*px)/2)`, made after
`DrawBackground`.  For each of the eleven glyph cells `(c, r)`, every pixel
`(x, y)` of the `px × px` block `dx + c*px ≤ x < dx + c*px + px`,
`dy + r*px ≤ y < dy + r*px + px` lies on the canvas and holds a fully
covering gray of the foreground palette 255, 245, 235, 225, 215. -/
theorem mainImage_glyph_cells (W H px : Int) (hpx : 0 < px) (hw : 5 * px ≤ W)
    (hh : 4 * px ≤ H) (bg : RGBA) (src : Nat → Nat) :
    (GetPointListBounds logo px).Max = ⟨5 * px, 4 * px⟩ ∧
    mainOffset W H px = (Int.tdiv (W - 5 * px) 2, Int.tdiv (H - 4 * px) 2) ∧
    mainImage W H bg px src =
      (DrawLogo
        (DrawBackgroundImage (fillRect (NewRGBA (Rect 0 0 W H)) (Rect 0 0 W H) bg) logo px
          ⟨src, 0⟩).1
        logo fgPalette (mainOffset W H px).1 (mainOffset W H px).2 px
        (DrawBackgroundImage (fillRect (NewRGBA (Rect 0 0 W H)) (Rect 0 0 W H) bg) logo px
          ⟨src, 0⟩).2).1 ∧
    ∀ pt ∈ ([⟨0, 0⟩, ⟨4, 0⟩, ⟨0, 1⟩, ⟨1, 1⟩, ⟨3, 1⟩, ⟨4, 1⟩, ⟨0, 2⟩, ⟨2, 2⟩, ⟨4, 2⟩,
        ⟨1, 3⟩, ⟨3, 3⟩] : List Point), ∀ x y : Int,
      Int.tdiv (W - 5 * px) 2 + pt.X * px ≤ x →
      x < Int.tdiv (W - 5 * px) 2 + pt.X * px + px →
      Int.tdiv (H - 4 * px) 2 + pt.Y * px ≤ y →
      y < Int.tdiv (H - 4 * px) 2 + pt.Y * px + px →
        (0 ≤ x ∧ x < W ∧ 0 ≤ y ∧ y < H) ∧
        ∃ v ∈ ([255, 245, 235, 225, 215] : List Nat),
          (mainImage W H bg px src).pix x y = ⟨v, v, v, 255⟩ := by
  have hlb := logo_bounds px hpx
  have hW : 0 ≤ W := by omega
  have hH : 0 ≤ H := by omega
  have hrect : Rect 0 0 W H = ⟨⟨0, 0⟩, ⟨W, H⟩⟩ := Rect_of_le 0 0 W H hW hH
  have hoff : mainOffset W H px = (Int.tdiv (W - 5 * px) 2, Int.tdiv (H - 4 * px) 2) := by
    unfold mainOffset
    rw [hlb]
  have hmain : mainImage W H bg px src =
      (DrawLogo
        (DrawBackgroundImage (fillRect (NewRGBA (Rect 0 0 W H)) (Rect 0 0 W H) bg) logo px
          ⟨src, 0⟩).1
        logo fgPalette (mainOffset W H px).1 (mainOffset W H px).2 px
        (DrawBackgroundImage (fillRect (NewRGBA (Rect 0 0 W H)) (Rect 0 0 W H) bg) logo px
          ⟨src, 0⟩).2).1 := by
    unfold mainImage
    simp only [fillRect, NewRGBA, hrect]
  refine ⟨by rw [hlb], hoff, hmain, ?_⟩
  intro pt hpt x y c1 c2 c3 c4
  have hpt1 : pt ∈ logo := hpt
  obtain ⟨hx0, hx4, hy0, hy3⟩ := logo_range pt hpt1
  have hin : 0 ≤ x ∧ x < W ∧ 0 ≤ y ∧ y < H := by
    have e1 : 0 ≤ pt.X * px := mul_nonneg hx0 hpx.le
    have e2 : 0 ≤ pt.Y * px := mul_nonneg hy0 hpx.le
    have e3 : pt.X * px ≤ 4 * px := mul_le_mul_of_nonneg_right hx4 hpx.le
    have e4 : pt.Y * px ≤ 3 * px := mul_le_mul_of_nonneg_right hy3 hpx.le
    have d1 : Int.tdiv (W - 5 * px) 2 = (W - 5 * px) / 2 :=
      Int.tdiv_eq_ediv (by omega) (by decide)
    have d2 : Int.tdiv (H - 4 * px) 2 = (H - 4 * px) / 2 :=
      Int.tdiv_eq_ediv (by omega) (by decide)
    rw [d1] at c1 c2
    rw [d2] at c3 c4
    omega
  have hc : (cellRect pt (mainOffset W H px).1 (mainOffset W H px).2 px).Contains ⟨x, y⟩ := by
    rw [hoff]
    simp only
    unfold cellRect
    rw [Rect_of_le _ _ _ _ (by omega) (by omega)]
    unfold Rectangle.Contains
    simp only
    omega
  refine ⟨hin, ?_⟩
  have hb : (DrawBackgroundImage (fillRect (NewRGBA (Rect 0 0 W H)) (Rect 0 0 W H) bg) logo px
      ⟨src, 0⟩).1.bounds.Contains ⟨x, y⟩ := by
    rw [DrawBackgroundImage_bounds]
    simp only [fillRect, NewRGBA, hrect]
    exact hin
  obtain ⟨v, hv, hpix⟩ := DrawLogo_cells fgPalette (by decide) logo
    (mainOffset W H px).1 (mainOffset W H px).2 px _
    (DrawBackgroundImage (fillRect (NewRGBA (Rect 0 0 W H)) (Rect 0 0 W H) bg) logo px
      ⟨src, 0⟩).2 pt hpt1 x y hc hb
  refine ⟨v, hv, ?_⟩
  rw [hmain, hpix]
  rfl

/-- Instance of C13 on a 40x40 canvas with `px = 5` (offset `(7, 10)`), a black
background and the stream of draws `0, 1, 2, …`. -/
theorem mainImage_glyph_cells_witness :
    (0 : Int) < 5 ∧ (5 : Int) * 5 ≤ 40 ∧ (4 : Int) * 5 ≤ 40 ∧
    ∀ pt ∈ ([⟨0, 0⟩, ⟨4, 0⟩, ⟨0, 1⟩, ⟨1, 1⟩, ⟨3, 1⟩, ⟨4, 1⟩, ⟨0, 2⟩, ⟨2, 2⟩, ⟨4, 2⟩,
        ⟨1, 3⟩, ⟨3, 3⟩] : List Point), ∀ x y : Int,
      Int.tdiv (40 - 5 * 5) 2 + pt.X * 5 ≤ x →
      x < Int.tdiv (40 - 5 * 5) 2 + pt.X * 5 + 5 →
      Int.tdiv (40 - 4 * 5) 2 + pt.Y * 5 ≤ y →
      y < Int.tdiv (40 - 4 * 5) 2 + pt.Y * 5 + 5 →
        (0 ≤ x ∧ x < 40 ∧ 0 ≤ y ∧ y < 40) ∧
        ∃ v ∈ ([255, 245, 235, 225, 215] : List Nat),
          (mainImage 40 40 ⟨0, 0, 0, 255⟩ 5 (fun n => n)).pix x y = ⟨v, v, v, 255⟩ :=
  ⟨by decide, by decide, by decide,
    (mainImage_glyph_cells 40 40 5 (by decide) (by decide) (by decide) ⟨0, 0, 0, 255⟩
      (fun n => n)).2.2.2⟩

/-- C18: when the logo fits (`lw ≤ iw` and `lh ≤ ih`, in particular when
`iw ≥ lw ≥ 0` and `ih ≥ lh ≥ 0`) the offset
`dx = (iw - lw)/2` is non-negative and the right margin `iw - (dx + lw)` is
`dx` or `dx + 1`, being `dx` exactly when `iw - lw` is even; likewise for `dy`.
The offset computed in `main` is the one computed in `DrawBackground`, so the
foreground logo starts at the corner of background tile `(0, 0)`. -/
theorem centering (iw ih : Int) (pts : List Point) (px : Int)
    (hw : (layout iw ih pts px).lw ≤ iw) (hh : (layout iw ih pts px).lh ≤ ih) :
    (layout iw ih pts px).dx = Int.tdiv (iw - (layout iw ih pts px).lw) 2 ∧
    (layout iw ih pts px).dy = Int.tdiv (ih - (layout iw ih pts px).lh) 2 ∧
    0 ≤ (layout iw ih pts px).dx ∧
    (iw - ((layout iw ih pts px).dx + (layout iw ih pts px).lw) = (layout iw ih pts px).dx ∨
      iw - ((layout iw ih pts px).dx + (layout iw ih pts px).lw) =
        (layout iw ih pts px).dx + 1) ∧
    (iw - ((layout iw ih pts px).dx + (layout iw ih pts px).lw) = (layout iw ih pts px).dx ↔
      (iw - (layout iw ih pts px).lw) % 2 = 0) ∧
    0 ≤ (layout iw ih pts px).dy ∧
    (ih - ((layout iw ih pts px).dy + (layout iw ih pts px).lh) = (layout iw ih pts px).dy ∨
      ih - ((layout iw ih pts px).dy + (layout iw ih pts px).lh) =
        (layout iw ih pts px).dy + 1) ∧
    (ih - ((layout iw ih pts px).dy + (layout iw ih pts px).lh) = (layout iw ih pts px).dy ↔
      (ih - (layout iw ih pts px).lh) % 2 = 0) ∧
    mainOffset iw ih px = ((layout iw ih logo px).dx, (layout iw ih logo px).dy) ∧
    (tileRect (layout iw ih logo px) 0 0).Min =
      ⟨(mainOffset iw ih px).1, (mainOffset iw ih px).2⟩ := by
  have hdx : (layout iw ih pts px).dx = Int.tdiv (iw - (layout iw ih pts px).lw) 2 := rfl
  have hdy : (layout iw ih pts px).dy = Int.tdiv (ih - (layout iw ih pts px).lh) 2 := rfl
  have ex : Int.tdiv (iw - (layout iw ih pts px).lw) 2 = (iw - (layout iw ih pts px).lw) / 2 :=
    Int.tdiv_eq_ediv (by omega) (by decide)
  have ey : Int.tdiv (ih - (layout iw ih pts px).lh) 2 = (ih - (layout iw ih pts px).lh) / 2 :=
    Int.tdiv_eq_ediv (by omega) (by decide)
  refine ⟨hdx, hdy, ?_, ?_, ?_, ?_, ?_, ?_, mainOffset_eq iw ih px, ?_⟩
  · rw [hdx, ex]; omega
  · rw [hdx, ex]; omega
  · rw [hdx, ex]; omega
  · rw [hdy, ey]; omega
  · rw [hdy, ey]; omega
  · rw [hdy, ey]; omega
  · rw [mainOffset_eq]
    simp [tileRect]

/-- Instance of C18 on the default 800x600 canvas with `px = 10`. -/
theorem centering_witness :
    (layout 800 600 logo 10).lw ≤ 800 ∧ (layout 800 600 logo 10).lh ≤ 600 ∧
    0 ≤ (layout 800 600 logo 10).dx ∧
    (800 - ((layout 800 600 logo 10).dx + (layout 800 600 logo 10).lw) =
        (layout 800 600 logo 10).dx ∨
      800 - ((layout 800 600 logo 10).dx + (layout 800 600 logo 10).lw) =
        (layout 800 600 logo 10).dx + 1) ∧
    mainOffset 800 600 10 = ((layout 800 600 logo 10).dx, (layout 800 600 logo 10).dy) :=
  ⟨by decide, by decide,
    (centering 800 600 logo 10 (by decide) (by decide)).2.2.1,
    (centering 800 600 logo 10 (by decide) (by decide)).2.2.2.1,
    (centering 800 600 logo 10 (by decide) (by decide)).2.2.2.2.2.2.2.2.1⟩

/-! ## Rounding of the quotient in `IntDivideCeil` -/

theorem IsFloat64_int (z : Int) (hz : |z| < 2 ^ 53) : IsFloat64 (z : ℚ) :=
  ⟨z, 0, hz, by decide, by decide, by simp⟩

/-- The quotient of two integers below `2^53` is never rounded across an
integer: the ceiling of the rounded quotient is the ceiling of the exact one. -/
theorem ceil_of_roundsTo (a b : Int) (ha : 0 ≤ a) (ha2 : a < 2 ^ 53) (hb : 0 < b)
    (hb2 : b < 2 ^ 53) (r : ℚ) (hr : RoundsTo ((a : ℚ) / (b : ℚ)) r) :
    Int.ceil r = Int.ceil ((a : ℚ) / (b : ℚ)) := by
  have hbq : (0 : ℚ) < (b : ℚ) := by exact_mod_cast hb
  have haq : (0 : ℚ) ≤ (a : ℚ) := by exact_mod_cast ha
  have hq0 : (0 : ℚ) ≤ (a : ℚ) / (b : ℚ) := div_nonneg haq hbq.le
  have hqc : (a : ℚ) / (b : ℚ) ≤ (Int.ceil ((a : ℚ) / (b : ℚ)) : ℚ) := Int.le_ceil _
  have hcq : (Int.ceil ((a : ℚ) / (b : ℚ)) : ℚ) - 1 < (a : ℚ) / (b : ℚ) := by
    have := Int.ceil_lt_add_one ((a : ℚ) / (b : ℚ)); linarith
  generalize hc : Int.ceil ((a : ℚ) / (b : ℚ)) = c at hqc hcq
  have hc0 : 0 ≤ c := by rw [← hc]; exact Int.ceil_nonneg hq0
  have hca : c ≤ a := by
    rw [← hc, Int.ceil_le]
    have hb1 : (1 : ℚ) ≤ (b : ℚ) := by exact_mod_cast hb
    exact div_le_self haq hb1
  have hcF : IsFloat64 (c : ℚ) := IsFloat64_int c (by rw [abs_of_nonneg hc0]; omega)
  rw [Int.ceil_eq_iff]
  constructor
  · -- the rounded quotient stays above `c - 1`
    rcases Int.lt_or_le 0 a with ha1 | ha1
    · have hn : (c - 1) * b + 1 ≤ a := by
        have h1 : ((c : ℚ) - 1) * (b : ℚ) < (a : ℚ) := (lt_div_iff₀ hbq).1 hcq
        have h2 : (c - 1) * b < a := by exact_mod_cast h1
        omega
      have hc1 : 1 ≤ c := by
        by_contra hlt
        have hc00 : c = 0 := by omega
        rw [hc00] at hqc
        have : (a : ℚ) ≤ 0 := by
          have := (div_le_iff₀ hbq).1 hqc
          simpa using this
        have : a ≤ 0 := by exact_mod_cast this
        omega
      obtain ⟨bn, rfl⟩ := Int.eq_ofNat_of_zero_le hb.le
      have hbn0 : bn ≠ 0 := by rintro rfl; simp at hb
      have hL1 : 2 ^ Nat.log 2 bn ≤ bn := Nat.pow_log_le_self 2 hbn0
      have hL2 : bn < 2 ^ (Nat.log 2 bn + 1) := Nat.lt_pow_succ_log_self (by decide) bn
      have hL : Nat.log 2 bn < 53 := by
        have hbn53 : bn < 2 ^ 53 := by exact_mod_cast hb2
        exact (Nat.pow_lt_pow_iff_right (by decide : 1 < 2)).1 (lt_of_le_of_lt hL1 hbn53)
      generalize Nat.log 2 bn = L at hL1 hL2 hL
      have hP1 : ((2 : Int) ^ L) ≤ (bn : Int) := by exact_mod_cast hL1
      have hP2 : (bn : Int) < 2 * (2 : Int) ^ L := by
        have : (bn : Int) < (2 : Int) ^ (L + 1) := by exact_mod_cast hL2
        rw [pow_succ] at this; omega
      have hP0 : (0 : Int) < (2 : Int) ^ L := by positivity
      have hm : (c - 1) * (2 : Int) ^ L ≤ (c - 1) * (bn : Int) :=
        mul_le_mul_of_nonneg_left hP1 (by omega)
      have hm0 : 0 ≤ (c - 1) * (2 : Int) ^ L := mul_nonneg (by omega) hP0.le
      have hxF : IsFloat64 ((((c - 1) * (2 : Int) ^ L + 1 : Int) : ℚ) * (2 : ℚ) ^ (-(L : Int))) :=
        ⟨(c - 1) * (2 : Int) ^ L + 1, -(L : Int), by rw [abs_of_nonneg (by omega)]; omega,
          by omega, by omega, rfl⟩
      have hPq : (0 : ℚ) < (2 : ℚ) ^ L := by positivity
      have hx : (((c - 1) * (2 : Int) ^ L + 1 : Int) : ℚ) * (2 : ℚ) ^ (-(L : Int)) =
          ((c : ℚ) - 1) + 1 / (2 : ℚ) ^ L := by
        rw [zpow_neg, zpow_natCast]
        push_cast
        field_simp
      rw [hx] at hxF
      have hnear := hr.2 _ hxF
      -- the exact quotient is at least `1/b` above `c - 1`
      have hq1 : ((c : ℚ) - 1) + 1 / (bn : ℚ) ≤ (a : ℚ) / (bn : ℚ) := by
        rw [le_div_iff₀ (by exact_mod_cast hbq)]
        have : (((c - 1) * (bn : Int) + 1 : Int) : ℚ) ≤ (a : ℚ) := by exact_mod_cast hn
        push_cast at this
        have hbne : ((bn : ℚ)) ≠ 0 := by
          have : (0 : ℚ) < (bn : ℚ) := by exact_mod_cast hbq
          exact ne_of_gt this
        field_simp
        linarith
      have hq2 : 1 / (2 : ℚ) ^ L < 2 * (1 / (bn : ℚ)) := by
        have hbq2 : (0 : ℚ) < (bn : ℚ) := by exact_mod_cast hbq
        have h2 : ((bn : ℚ)) < 2 * (2 : ℚ) ^ L := by exact_mod_cast hP2
        rw [div_lt_iff₀ hPq]
        have : 2 * (1 / (bn : ℚ)) * (2 : ℚ) ^ L = (2 * (2 : ℚ) ^ L) / (bn : ℚ) := by
          field_simp
        rw [this, lt_div_iff₀ hbq2]
        linarith
      have hpos : (0 : ℚ) < 1 / (2 : ℚ) ^ L := by positivity
      have hlt : |((c : ℚ) - 1) + 1 / (2 : ℚ) ^ L - (a : ℚ) / ((bn : Int) : ℚ)| <
          (a : ℚ) / ((bn : Int) : ℚ) - ((c : ℚ) - 1) := by
        rw [abs_lt]
        push_cast
        constructor <;> linarith
      have h3 := lt_of_le_of_lt hnear hlt
      have h4 := neg_abs_le (r - (a : ℚ) / ((bn : Int) : ℚ))
      linarith
    · have ha0 : a = 0 := by omega
      subst ha0
      have h0 := hr.2 0 (by simpa using IsFloat64_int 0 (by decide))
      simp only [Int.cast_zero, zero_div, sub_zero, abs_zero] at h0
      have hr0 : r = 0 := abs_eq_zero.1 (le_antisymm h0 (abs_nonneg r))
      have hc00 : c = 0 := by omega
      rw [hr0, hc00]
      norm_num
  · -- the rounded quotient does not exceed the integer `c`
    have h := hr.2 (c : ℚ) hcF
    rw [abs_of_nonneg (by linarith : (0 : ℚ) ≤ (c : ℚ) - (a : ℚ) / (b : ℚ))] at h
    have := le_abs_self (r - (a : ℚ) / (b : ℚ))
    linarith


/-- Among the numbers `m * 2^e` with `|m| < M` and `lo ≤ e ≤ hi` one is nearest
to any given number. -/
theorem exists_nearest (M lo hi : Int) (hM : 0 < M) (hlo : lo ≤ hi) (q : ℚ) :
    ∃ m e : Int, (|m| < M ∧ lo ≤ e ∧ e ≤ hi) ∧
      ∀ m' e' : Int, |m'| < M → lo ≤ e' → e' ≤ hi →
        |(m : ℚ) * (2 : ℚ) ^ e - q| ≤ |(m' : ℚ) * (2 : ℚ) ^ e' - q| := by
  have hne : (Finset.Ioo (-M) M ×ˢ Finset.Icc lo hi).Nonempty :=
    ⟨(0, lo), by
      simp only [Finset.mem_product, Finset.mem_Ioo, Finset.mem_Icc]
      omega⟩
  obtain ⟨p, hp, hmin⟩ := Finset.exists_min_image _
    (fun p : Int × Int => |(p.1 : ℚ) * (2 : ℚ) ^ p.2 - q|) hne
  simp only [Finset.mem_product, Finset.mem_Ioo, Finset.mem_Icc] at hp
  refine ⟨p.1, p.2, ⟨abs_lt.2 ⟨hp.1.1, hp.1.2⟩, hp.2.1, hp.2.2⟩, ?_⟩
  intro m e hm he1 he2
  have hm2 := abs_lt.1 hm
  exact hmin (m, e) (by
    simp only [Finset.mem_product, Finset.mem_Ioo, Finset.mem_Icc]
    exact ⟨⟨hm2.1, hm2.2⟩, he1, he2⟩)

/-- Some `float64` is nearest to any given number: rounding always has a result. -/
theorem exists_roundsTo (q : ℚ) : ∃ r : ℚ, RoundsTo q r := by
  obtain ⟨m, e, ⟨h1, h2, h3⟩, hmin⟩ :=
    exists_nearest ((2 : Int) ^ 53) (-1074) 971 (by positivity) (by decide) q
  refine ⟨(m : ℚ) * (2 : ℚ) ^ e, ⟨m, e, h1, h2, h3, rfl⟩, ?_⟩
  rintro x ⟨m', e', hm', he1, he2, rfl⟩
  exact hmin m' e' hm' he1 he2

/-- The ideal quotient ceiling is the least integer `z` with `z * b ≥ a`. -/
theorem IntDivideCeil_least (a b : Int) (hb : 0 < b) :
    a ≤ IntDivideCeil a b * b ∧ ∀ z : Int, a ≤ z * b → IntDivideCeil a b ≤ z := by
  have hbq : (0 : ℚ) < (b : ℚ) := by exact_mod_cast hb
  unfold IntDivideCeil
  constructor
  · have h := Int.le_ceil ((a : ℚ) / (b : ℚ))
    rw [div_le_iff₀ hbq] at h
    exact_mod_cast h
  · intro z hz
    rw [Int.ceil_le, div_le_iff₀ hbq]
    exact_mod_cast hz

/-- C19: for integers `0 ≤ a < 2^53` and `0 < b < 2^53` the conversions to
`float64` are exact, every correctly rounded quotient `float64(a) / float64(b)`
has the same ceiling as the exact quotient, and so the value computed by
`IntDivideCeil(a, b)` is the mathematical ceiling of `a/b`, the least integer
`z` with `z*b ≥ a`; the tile counts `wt` and `ht` are these ceilings of
`(iw+dx)/lw` and `(ih+dy)/lh`. -/
theorem IntDivideCeil_ceiling (a b : Int) (ha : 0 ≤ a) (ha2 : a < 2 ^ 53) (hb : 0 < b)
    (hb2 : b < 2 ^ 53) :
    IsFloat64 (a : ℚ) ∧ IsFloat64 (b : ℚ) ∧
    (∀ z : Int, IntDivideCeilFloat a b z ↔ z = IntDivideCeil a b) ∧
    a ≤ IntDivideCeil a b * b ∧ (∀ z : Int, a ≤ z * b → IntDivideCeil a b ≤ z) ∧
    (∀ (iw ih : Int) (pts : List Point) (px : Int),
      (layout iw ih pts px).wt =
        IntDivideCeil (iw + (layout iw ih pts px).dx) (layout iw ih pts px).lw ∧
      (layout iw ih pts px).ht =
        IntDivideCeil (ih + (layout iw ih pts px).dy) (layout iw ih pts px).lh) := by
  refine ⟨IsFloat64_int a (by rw [abs_of_nonneg ha]; exact ha2),
    IsFloat64_int b (by rw [abs_of_nonneg hb.le]; exact hb2), ?_,
    (IntDivideCeil_least a b hb).1, (IntDivideCeil_least a b hb).2, fun _ _ _ _ => ⟨rfl, rfl⟩⟩
  intro z
  constructor
  · rintro ⟨r, hr, rfl⟩
    exact ceil_of_roundsTo a b ha ha2 hb hb2 r hr
  · rintro rfl
    obtain ⟨r, hr⟩ := exists_roundsTo ((a : ℚ) / (b : ℚ))
    exact ⟨r, hr, (ceil_of_roundsTo a b ha ha2 hb hb2 r hr).symm⟩

/-- Instance of C19 at `a = 7`, `b = 2`, where the ceiling is `4`. -/
theorem IntDivideCeil_ceiling_witness :
    (0 : Int) ≤ 7 ∧ (7 : Int) < 2 ^ 53 ∧ (0 : Int) < 2 ∧ (2 : Int) < 2 ^ 53 ∧
    IntDivideCeil 7 2 = 4 ∧
    (∀ z : Int, IntDivideCeilFloat 7 2 z ↔ z = IntDivideCeil 7 2) ∧
    (7 : Int) ≤ IntDivideCeil 7 2 * 2 ∧ (∀ z : Int, 7 ≤ z * 2 → IntDivideCeil 7 2 ≤ z) :=
  ⟨by decide, by decide, by decide, by decide,
    by rw [IntDivideCeil_eq 7 2 (by decide)]; decide,
    (IntDivideCeil_ceiling 7 2 (by decide) (by decide) (by decide) (by decide)).2.2.1,
    (IntDivideCeil_ceiling 7 2 (by decide) (by decide) (by decide) (by decide)).2.2.2.1,
    (IntDivideCeil_ceiling 7 2 (by decide) (by decide) (by decide) (by decide)).2.2.2.2.1⟩

end TdLogo
